import Mathlib

/-!
# UE4 sorting compute shader: the pass scheduler and the execution state machine

A shallow embedding of `ComputeShaderUsageExample.h` / `ComputeShaderUsageExample.cpp`
(class `FComputeShader`).  `UINT` / `uint32` values are natural numbers reduced modulo
`2 ^ 32` wherever the C++ arithmetic can wrap; loops carry an explicit fuel and
return `none` when the fuel runs out.
-/

namespace SortingComputeShader

/-! ## Constants of `ComputeShaderUsageExample.h` -/

/-- The compile-time constants of the header.  The header fixes them (see `header`);
they are kept as a record so that the schedule can also be run at test sizes. -/
structure Constants where
  NUM_ELEMENTS : Nat
  BITONIC_BLOCK_SIZE : Nat
  TRANSPOSE_BLOCK_SIZE : Nat
  deriving DecidableEq, Repr

/-- Header line `const UINT MATRIX_WIDTH = BITONIC_BLOCK_SIZE;`. -/
def Constants.MATRIX_WIDTH (c : Constants) : Nat := c.BITONIC_BLOCK_SIZE

/-- Header line `const UINT MATRIX_HEIGHT = NUM_ELEMENTS / BITONIC_BLOCK_SIZE;`. -/
def Constants.MATRIX_HEIGHT (c : Constants) : Nat := c.NUM_ELEMENTS / c.BITONIC_BLOCK_SIZE

/-- The values written in the header: `NUM_ELEMENTS = 1024 * 1024`,
`BITONIC_BLOCK_SIZE = 1024`, `TRANSPOSE_BLOCK_SIZE = 16`. -/
def header : Constants :=
  { NUM_ELEMENTS := 1024 * 1024, BITONIC_BLOCK_SIZE := 1024, TRANSPOSE_BLOCK_SIZE := 16 }

/-- The constant `NUM_ELEMENTS` of the header. -/
def NUM_ELEMENTS : Nat := header.NUM_ELEMENTS

/-- The constant `BITONIC_BLOCK_SIZE` of the header. -/
def BITONIC_BLOCK_SIZE : Nat := header.BITONIC_BLOCK_SIZE

/-- The constant `TRANSPOSE_BLOCK_SIZE` of the header. -/
def TRANSPOSE_BLOCK_SIZE : Nat := header.TRANSPOSE_BLOCK_SIZE

/-- The constant `MATRIX_WIDTH` of the header. -/
def MATRIX_WIDTH : Nat := header.MATRIX_WIDTH

/-- The constant `MATRIX_HEIGHT` of the header. -/
def MATRIX_HEIGHT : Nat := header.MATRIX_HEIGHT

/-! ## 32-bit unsigned arithmetic -/

/-- Number of values of a `UINT`. -/
def UINT_SIZE : Nat := 2 ^ 32

/-- The C++ operator `~` on a `UINT`. -/
def not32 (x : Nat) : Nat := (UINT_SIZE - 1) ^^^ (x % UINT_SIZE)

/-- The C++ operator `*` on two `UINT`s. -/
def mul32 (x y : Nat) : Nat := (x * y) % UINT_SIZE

/-! ## Dispatches recorded on the command list -/

/-- The two compute kernels `FComputeShaderDeclaration` (sort) and
`FComputeShaderTransposeDeclaration` (transpose). -/
inductive Kernel where
  | Sort
  | Transpose
  deriving DecidableEq, Repr

/-- A four component vector (`FVector4`) over a scalar type `F`. -/
structure FVector4 (F : Type) where
  X : F
  Y : F
  Z : F
  W : F
  deriving DecidableEq, Repr

/-- The fields of `FComputeShaderVariableParameters` written by `FComputeShader`. -/
structure FComputeShaderVariableParameters (F : Type) where
  g_iLevel : Nat
  g_iLevelMask : Nat
  g_iHeight : Nat
  g_iWidth : Nat
  CurrentCamPos : FVector4 F
  deriving DecidableEq, Repr

/-- One `DispatchComputeShader` call: the kernel, the uniform buffer contents set by the
preceding `SetUniformBuffers`, and the three thread group counts. -/
structure Dispatch (F : Type) where
  kernel : Kernel
  params : FComputeShaderVariableParameters F
  groupsX : Nat
  groupsY : Nat
  groupsZ : Nat
  deriving DecidableEq, Repr

/-! ## `FComputeShader::ParallelBitonicSort`: the two loops -/

/-- Source lines 145-148: the constants of a local level. -/
def localConstants {F : Type} (c : Constants) (level : Nat)
    (vp : FComputeShaderVariableParameters F) : FComputeShaderVariableParameters F :=
  { vp with g_iLevel := level, g_iLevelMask := level,
            g_iHeight := c.MATRIX_WIDTH, g_iWidth := c.MATRIX_HEIGHT }

/-- The call `DispatchComputeShader(RHICmdList, *ComputeShaderTranspose,
MATRIX_HEIGHT / TRANSPOSE_BLOCK_SIZE, MATRIX_WIDTH / TRANSPOSE_BLOCK_SIZE, 1)` after
`SetUniformBuffers` with `vp`. -/
def transposeDispatch {F : Type} (c : Constants) (vp : FComputeShaderVariableParameters F) :
    Dispatch F :=
  { kernel := Kernel.Transpose, params := vp,
    groupsX := c.MATRIX_HEIGHT / c.TRANSPOSE_BLOCK_SIZE,
    groupsY := c.MATRIX_WIDTH / c.TRANSPOSE_BLOCK_SIZE, groupsZ := 1 }

/-- The call `DispatchComputeShader(RHICmdList, *ComputeShader, 1,
NUM_ELEMENTS / BITONIC_BLOCK_SIZE, 1)` after `SetUniformBuffers` with `vp`. -/
def sortDispatch {F : Type} (c : Constants) (vp : FComputeShaderVariableParameters F) :
    Dispatch F :=
  { kernel := Kernel.Sort, params := vp,
    groupsX := 1, groupsY := c.NUM_ELEMENTS / c.BITONIC_BLOCK_SIZE, groupsZ := 1 }

/-- The body of the first loop (source lines 144-154): set the constants, dispatch the
sort kernel.  Returns the updated `VariableParameters` and the dispatch issued. -/
def localBody {F : Type} (c : Constants) (level : Nat)
    (vp : FComputeShaderVariableParameters F) :
    FComputeShaderVariableParameters F × List (Dispatch F) :=
  let vp1 := localConstants c level vp
  (vp1, [sortDispatch c vp1])

/-- The first loop, `for (UINT level = 2; level <= BITONIC_BLOCK_SIZE; level = level * 2)`,
started at `level`; `none` when the fuel is exhausted before the loop exits. -/
def localLoop {F : Type} (c : Constants) :
    Nat → Nat → FComputeShaderVariableParameters F →
      Option (FComputeShaderVariableParameters F × List (Dispatch F))
  | 0, _, _ => none
  | fuel + 1, level, vp =>
    if level ≤ c.BITONIC_BLOCK_SIZE then
      let r := localBody c level vp
      match localLoop c fuel (mul32 level 2) r.1 with
      | none => none
      | some (vp2, ds) => some (vp2, r.2 ++ ds)
    else some (vp, [])

/-- Source lines 162-165: the constants of the first transpose of a global level. -/
def transposeConstants {F : Type} (c : Constants) (level : Nat)
    (vp : FComputeShaderVariableParameters F) : FComputeShaderVariableParameters F :=
  { vp with g_iLevel := level / c.BITONIC_BLOCK_SIZE,
            g_iLevelMask := (level &&& not32 c.NUM_ELEMENTS) / c.BITONIC_BLOCK_SIZE,
            g_iHeight := c.MATRIX_HEIGHT, g_iWidth := c.MATRIX_WIDTH }

/-- Source lines 176-179: the constants of the second transpose of a global level. -/
def transposeBackConstants {F : Type} (c : Constants) (level : Nat)
    (vp : FComputeShaderVariableParameters F) : FComputeShaderVariableParameters F :=
  { vp with g_iLevel := c.BITONIC_BLOCK_SIZE, g_iLevelMask := level,
            g_iHeight := c.MATRIX_WIDTH, g_iWidth := c.MATRIX_HEIGHT }

/-- The body of the second loop (source lines 161-188): transpose, sort, transpose, sort. -/
def globalBody {F : Type} (c : Constants) (level : Nat)
    (vp : FComputeShaderVariableParameters F) :
    FComputeShaderVariableParameters F × List (Dispatch F) :=
  let vp1 := transposeConstants c level vp
  let vp2 := transposeBackConstants c level vp1
  (vp2, [transposeDispatch c vp1, sortDispatch c vp1, transposeDispatch c vp2,
         sortDispatch c vp2])

/-- The second loop,
`for (UINT level = (BITONIC_BLOCK_SIZE * 2); level <= NUM_ELEMENTS; level = level * 2)`,
started at `level`; `none` when the fuel is exhausted before the loop exits. -/
def globalLoop {F : Type} (c : Constants) :
    Nat → Nat → FComputeShaderVariableParameters F →
      Option (FComputeShaderVariableParameters F × List (Dispatch F))
  | 0, _, _ => none
  | fuel + 1, level, vp =>
    if level ≤ c.NUM_ELEMENTS then
      let r := globalBody c level vp
      match globalLoop c fuel (mul32 level 2) r.1 with
      | none => none
      | some (vp2, ds) => some (vp2, r.2 ++ ds)
    else some (vp, [])

/-- The local phase: the first loop from `level = 2`. -/
def localPhase {F : Type} (c : Constants) (fuel : Nat)
    (vp : FComputeShaderVariableParameters F) :
    Option (FComputeShaderVariableParameters F × List (Dispatch F)) :=
  localLoop c fuel 2 vp

/-- The global phase: the second loop from `level = BITONIC_BLOCK_SIZE * 2`. -/
def globalPhase {F : Type} (c : Constants) (fuel : Nat)
    (vp : FComputeShaderVariableParameters F) :
    Option (FComputeShaderVariableParameters F × List (Dispatch F)) :=
  globalLoop c fuel (mul32 c.BITONIC_BLOCK_SIZE 2) vp

/-- The dispatch sequence of `FComputeShader::ParallelBitonicSort` (source lines 142-189):
the local phase followed by the global phase, with the `VariableParameters` member
threaded through. -/
def dispatchSequence {F : Type} (c : Constants) (fuel : Nat)
    (vp : FComputeShaderVariableParameters F) :
    Option (FComputeShaderVariableParameters F × List (Dispatch F)) :=
  match localPhase c fuel vp with
  | none => none
  | some (vp1, ds1) =>
    match globalPhase c fuel vp1 with
    | none => none
    | some (vp2, ds2) => some (vp2, ds1 ++ ds2)

/-! ## The object, the render queue and the command list -/

/-- The members of `FComputeShader` read or written by the functions below.  A view
(`TextureUAV`, `BufferUAV`, `BufferUAV2`) is `true` while it holds a resource and `false`
when it is `NULL`. -/
structure FComputeShader (F : Type) where
  bIsComputeShaderExecuting : Bool
  bIsUnloading : Bool
  bSave : Bool
  VariableParameters : FComputeShaderVariableParameters F
  PointPosData : List (FVector4 F)
  TextureUAV : Bool
  BufferUAV : Bool
  BufferUAV2 : Bool

/-- What the render thread has issued on the RHI command list: kernel dispatches and calls of
`SaveScreenshot`. -/
inductive Command (F : Type) where
  | dispatch (d : Dispatch F)
  | saveScreenshot
  deriving DecidableEq, Repr

/-- Where the render thread stands inside `ExecuteComputeShaderInternal`. -/
inductive RenderPC where
  /-- Not inside `ExecuteComputeShaderInternal`. -/
  | idle
  /-- At the test of the first loop (line 142) with the given `level`. -/
  | firstLoop (level : Nat)
  /-- In the second loop with the given `level`: `sub = 0` at the loop test (line 159),
  `sub = 1, 2, 3` before the second, third and fourth dispatch of the body. -/
  | secondLoop (level : Nat) (sub : Nat)
  /-- After `ParallelBitonicSort` returned (line 113). -/
  | afterSort
  deriving DecidableEq, Repr

/-- The object together with its environment: the number of `FComputeShaderRunner` commands
waiting in the render queue, the commands issued so far, and the position of the render
thread. -/
structure World (F : Type) where
  self : FComputeShader F
  renderQueue : Nat
  commands : List (Command F)
  pc : RenderPC

/-- The constructor `FComputeShader::FComputeShader` (lines 29-57): the three flags are false,
the views are created, the staging array holds `NUM_ELEMENTS` copies of `(-1, -1, -1, -1)`.
`vp0` is the value of `FComputeShaderVariableParameters()`. -/
def FComputeShader.construct {F : Type} [Neg F] [One F] (c : Constants)
    (vp0 : FComputeShaderVariableParameters F) : FComputeShader F :=
  { bIsComputeShaderExecuting := false
    bIsUnloading := false
    bSave := false
    VariableParameters := vp0
    PointPosData := List.replicate c.NUM_ELEMENTS { X := -1, Y := -1, Z := -1, W := -1 }
    TextureUAV := true
    BufferUAV := true
    BufferUAV2 := true }

/-- The world right after construction: nothing enqueued, nothing issued. -/
def World.constructed {F : Type} [Neg F] [One F] (c : Constants)
    (vp0 : FComputeShaderVariableParameters F) : World F :=
  { self := FComputeShader.construct c vp0, renderQueue := 0, commands := [],
    pc := RenderPC.idle }

/-- The destructor `FComputeShader::~FComputeShader` (lines 59-62). -/
def destructor {F : Type} (w : World F) : World F :=
  { w with self := { w.self with bIsUnloading := true } }

/-- The member `Save()` of the header (lines 60-63). -/
def Save {F : Type} (w : World F) : World F :=
  { w with self := { w.self with bSave := true } }

/-- The member `FComputeShader::ExecuteComputeShader` (lines 64-83). -/
def ExecuteComputeShader {F : Type} (currentCamPos : FVector4 F) (w : World F) : World F :=
  if w.self.bIsUnloading || w.self.bIsComputeShaderExecuting then w
  else
    { w with
      self := { w.self with
                bIsComputeShaderExecuting := true
                VariableParameters :=
                  { w.self.VariableParameters with CurrentCamPos := currentCamPos } }
      renderQueue := w.renderQueue + 1 }

/-- The unloading branch of `ExecuteComputeShaderInternal` (lines 89-105): every view that is
not `NULL` is released and set to `NULL`. -/
def releaseViews {F : Type} (s : FComputeShader F) : FComputeShader F :=
  let s1 := if s.TextureUAV then { s with TextureUAV := false } else s
  let s2 := if s1.BufferUAV then { s1 with BufferUAV := false } else s1
  if s2.BufferUAV2 then { s2 with BufferUAV2 := false } else s2

/-- The member `FComputeShader::ParallelBitonicSort` (lines 117-191): `BufferUAV` is released
and created again, then the dispatch sequence is issued; it never reads `bIsUnloading`. -/
def ParallelBitonicSort {F : Type} (c : Constants) (fuel : Nat) (w : World F) :
    Option (World F) :=
  match dispatchSequence c fuel w.self.VariableParameters with
  | none => none
  | some (vp, ds) =>
    some { w with
           self := { w.self with BufferUAV := true, VariableParameters := vp }
           commands := w.commands ++ ds.map Command.dispatch }

/-- The member `FComputeShader::ExecuteComputeShaderInternal` (lines 85-115), run to
completion without interruption. -/
def ExecuteComputeShaderInternal {F : Type} (c : Constants) (fuel : Nat) (w : World F) :
    Option (World F) :=
  if w.self.bIsUnloading then some { w with self := releaseViews w.self }
  else
    match ParallelBitonicSort c fuel w with
    | none => none
    | some w1 =>
      let w2 :=
        if w1.self.bSave then
          { w1 with self := { w1.self with bSave := false }
                    commands := w1.commands ++ [Command.saveScreenshot] }
        else w1
      some { w2 with self := { w2.self with bIsComputeShaderExecuting := false } }

/-- The render thread runs one enqueued `FComputeShaderRunner` command: it is taken from the
queue and `ExecuteComputeShaderInternal` runs to completion.  `none` when the queue is
empty. -/
def runRenderCommand {F : Type} (c : Constants) (fuel : Nat) (w : World F) :
    Option (World F) :=
  if w.renderQueue = 0 then none
  else ExecuteComputeShaderInternal c fuel { w with renderQueue := w.renderQueue - 1 }

/-- The steps of the execution state machine, with the consumer run taken as one step. -/
inductive Request (F : Type) where
  | requestSort (currentCamPos : FVector4 F)
  | consumerRun
  | requestSave
  | teardown

/-- One step of the execution state machine; `none` when the step is not enabled. -/
def Request.apply {F : Type} (c : Constants) (fuel : Nat) (w : World F) :
    Request F → Option (World F)
  | Request.requestSort cam => some (ExecuteComputeShader cam w)
  | Request.consumerRun => runRenderCommand c fuel w
  | Request.requestSave => some (Save w)
  | Request.teardown => some (destructor w)

/-- The states reachable from the constructed state by steps of the state machine. -/
inductive Reachable {F : Type} [Neg F] [One F] (c : Constants) (fuel : Nat)
    (vp0 : FComputeShaderVariableParameters F) : World F → Prop where
  | init : Reachable c fuel vp0 (World.constructed c vp0)
  | step {w w1 : World F} (r : Request F) :
      Reachable c fuel vp0 w → r.apply c fuel w = some w1 → Reachable c fuel vp0 w1

/-! ## Interleaving: the render thread advances one dispatch at a time -/

/-- The render thread advances to just after its next dispatch (or loop exit), between
which the game thread may act.  From `idle` it takes a command from the queue and enters
`ExecuteComputeShaderInternal`; `none` when it is idle and the queue is empty. -/
def renderStep {F : Type} (c : Constants) (w : World F) : Option (World F) :=
  match w.pc with
  | RenderPC.idle =>
    if w.renderQueue = 0 then none
    else if w.self.bIsUnloading then
      some { w with renderQueue := w.renderQueue - 1, self := releaseViews w.self }
    else
      some { w with renderQueue := w.renderQueue - 1
                    self := { w.self with BufferUAV := true }
                    pc := RenderPC.firstLoop 2 }
  | RenderPC.firstLoop level =>
    if level ≤ c.BITONIC_BLOCK_SIZE then
      let vp := localConstants c level w.self.VariableParameters
      some { w with self := { w.self with VariableParameters := vp }
                    commands := w.commands ++ [Command.dispatch (sortDispatch c vp)]
                    pc := RenderPC.firstLoop (mul32 level 2) }
    else some { w with pc := RenderPC.secondLoop (mul32 c.BITONIC_BLOCK_SIZE 2) 0 }
  | RenderPC.secondLoop level 0 =>
    if level ≤ c.NUM_ELEMENTS then
      let vp := transposeConstants c level w.self.VariableParameters
      some { w with self := { w.self with VariableParameters := vp }
                    commands := w.commands ++ [Command.dispatch (transposeDispatch c vp)]
                    pc := RenderPC.secondLoop level 1 }
    else some { w with pc := RenderPC.afterSort }
  | RenderPC.secondLoop level 1 =>
    some { w with commands :=
                    w.commands ++ [Command.dispatch (sortDispatch c w.self.VariableParameters)]
                  pc := RenderPC.secondLoop level 2 }
  | RenderPC.secondLoop level 2 =>
    let vp := transposeBackConstants c level w.self.VariableParameters
    some { w with self := { w.self with VariableParameters := vp }
                  commands := w.commands ++ [Command.dispatch (transposeDispatch c vp)]
                  pc := RenderPC.secondLoop level 3 }
  | RenderPC.secondLoop level _ =>
    some { w with commands :=
                    w.commands ++ [Command.dispatch (sortDispatch c w.self.VariableParameters)]
                  pc := RenderPC.secondLoop (mul32 level 2) 0 }
  | RenderPC.afterSort =>
    let w2 :=
      if w.self.bSave then
        { w with self := { w.self with bSave := false }
                 commands := w.commands ++ [Command.saveScreenshot] }
      else w
    some { w2 with self := { w2.self with bIsComputeShaderExecuting := false }
                   pc := RenderPC.idle }

/-- The events of the interleaved machine: the three game thread calls and one advance of
the render thread. -/
inductive Event (F : Type) where
  | requestSort (currentCamPos : FVector4 F)
  | requestSave
  | teardown
  | render

/-- One event of the interleaved machine; `none` when the event is not enabled. -/
def Event.apply {F : Type} (c : Constants) (w : World F) : Event F → Option (World F)
  | Event.requestSort cam => some (ExecuteComputeShader cam w)
  | Event.requestSave => some (Save w)
  | Event.teardown => some (destructor w)
  | Event.render => renderStep c w

/-- Run a list of events in order; `none` as soon as one of them is not enabled. -/
def runEvents {F : Type} (c : Constants) : World F → List (Event F) → Option (World F)
  | w, [] => some w
  | w, e :: es =>
    match e.apply c w with
    | none => none
    | some w1 => runEvents c w1 es

/-- The number of kernel dispatches among the commands issued so far. -/
def dispatchCount {F : Type} (w : World F) : Nat :=
  (w.commands.filter (fun k => match k with
    | Command.dispatch _ => true
    | Command.saveScreenshot => false)).length

/-! ## `FComputeShader::SaveScreenshot`: unpacking one pixel -/

/-- An `FColor` as built by `FColor(r, g, b, a)`. -/
structure FColor where
  R : Nat
  G : Nat
  B : Nat
  A : Nat
  deriving DecidableEq, Repr

/-- Conversion of a `uint32` expression to `uint8`. -/
def toUInt8 (x : Nat) : Nat := x % 256

/-- Source lines 209-213: the four byte masks applied to `EncodedPixel`. -/
def unpackPixel (EncodedPixel : Nat) : FColor :=
  { R := toUInt8 (EncodedPixel &&& 0x000000FF),
    G := toUInt8 ((EncodedPixel &&& 0x0000FF00) >>> 8),
    B := toUInt8 ((EncodedPixel &&& 0x00FF0000) >>> 16),
    A := toUInt8 ((EncodedPixel &&& 0xFF000000) >>> 24) }

/-! ## `FComputeShader::SaveScreenshot`: reading the locked surface -/

/-- The inner loop `for (uint32 Col = 0; Col < Texture->GetSizeX(); ++Col)` (lines 206-216).
`read p` is the `uint32` found at byte offset `p` of the locked data, `PixelPtr` the byte
offset the pointer of the same name stands at; `PixelPtr++` advances it by four bytes. -/
def colLoop (read : Nat → Nat) (SizeX : Nat) :
    Nat → Nat → Nat → List FColor → Option (List FColor)
  | 0, _, _, _ => none
  | fuel + 1, Col, PixelPtr, Bitmap =>
    if Col < SizeX then
      colLoop read SizeX fuel ((Col + 1) % UINT_SIZE) (PixelPtr + 4)
        (Bitmap ++ [unpackPixel (read PixelPtr)])
    else some Bitmap

/-- The outer loop `for (uint32 Row = 0; Row < Texture->GetSizeY(); ++Row)` (lines 201-220).
`TextureDataPtr` is the byte offset of the current row; `TextureDataPtr += LolStride` moves
to the next one.  `colFuel` is the fuel given to each run of the inner loop. -/
def rowLoop (read : Nat → Nat) (SizeX SizeY LolStride colFuel : Nat) :
    Nat → Nat → Nat → List FColor → Option (List FColor)
  | 0, _, _, _ => none
  | fuel + 1, Row, TextureDataPtr, Bitmap =>
    if Row < SizeY then
      match colLoop read SizeX colFuel 0 TextureDataPtr Bitmap with
      | none => none
      | some Bitmap1 =>
        rowLoop read SizeX SizeY LolStride colFuel fuel ((Row + 1) % UINT_SIZE)
          (TextureDataPtr + LolStride) Bitmap1
    else some Bitmap

/-- What `SaveScreenshot` did after the read back: the pixels collected and, when the bitmap
was written, the width and height handed to `FFileHelper::CreateBitmap`; `saved = none` is
the branch that logs "Failed to save BMP". -/
structure Screenshot where
  Bitmap : List FColor
  saved : Option (Nat × Nat)
  deriving DecidableEq, Repr

/-- The member `FComputeShader::SaveScreenshot` (lines 193-243) on a surface of `SizeX` by
`SizeY` cells locked with row stride `LolStride`.  `none` when a loop runs out of fuel or
when the division `Bitmap.Num() / Texture->GetSizeY()` would divide by zero.
`Bitmap.Num()` is an `int32` converted to `uint32` for the division. -/
def SaveScreenshot (read : Nat → Nat) (SizeX SizeY LolStride fuel : Nat) : Option Screenshot :=
  match rowLoop read SizeX SizeY LolStride fuel fuel 0 0 [] with
  | none => none
  | some Bitmap =>
    if Bitmap.length ≠ 0 then
      if SizeY = 0 then none
      else some { Bitmap := Bitmap, saved := some ((Bitmap.length % UINT_SIZE) / SizeY, SizeY) }
    else some { Bitmap := Bitmap, saved := none }

/-! ## `FComputeShader::SetPointPosDataReference` -/

/-- An `FLinearColor` over a scalar type `F`. -/
structure FLinearColor (F : Type) where
  R : F
  G : F
  B : F
  A : F
  deriving DecidableEq, Repr

/-- The conversion `FVector4(const FLinearColor&)`: the components are copied in order. -/
def FVector4.ofLinearColor {F : Type} (k : FLinearColor F) : FVector4 F :=
  { X := k.R, Y := k.G, Z := k.B, W := k.A }

/-- The two ways `SetPointPosDataReference` can stop: the `check` of line 69, or the range
check of `PointPosData[i]`. -/
inductive Failure where
  | check
  | rangeCheck
  deriving DecidableEq, Repr

/-- The loop `for (int i = 0; i < data->Num(); ++i) PointPosData[i] = FVector4((*data)[i]);`
(lines 70-71), started at index `i` with the records not yet copied. -/
def copyLoop {F : Type} :
    List (FLinearColor F) → Nat → List (FVector4 F) → Except Failure (List (FVector4 F))
  | [], _, staging => Except.ok staging
  | x :: rest, i, staging =>
    if i < staging.length then
      copyLoop rest (i + 1) (staging.set i (FVector4.ofLinearColor x))
    else Except.error Failure.rangeCheck

/-- The member `SetPointPosDataReference` of the header (lines 68-72). -/
def SetPointPosDataReference {F : Type} (c : Constants) (data : List (FLinearColor F))
    (s : FComputeShader F) : Except Failure (FComputeShader F) :=
  if data.length ≤ c.NUM_ELEMENTS then
    match copyLoop data 0 s.PointPosData with
    | Except.ok staging => Except.ok { s with PointPosData := staging }
    | Except.error e => Except.error e
  else Except.error Failure.check

/-! ## The schedule in the words of the specification -/

/-- The local phase as the specification words it: one sort dispatch for each level
`2, 4, ..., BLOCK_SIZE` with `{level, levelMask = level, height = MATRIX_HEIGHT,
width = MATRIX_WIDTH}` and group count `(1, N / BLOCK_SIZE, 1)`. -/
def specLocalDispatches {F : Type} (cam : FVector4 F) : List (Dispatch F) :=
  (List.range 10).map (fun k =>
    { kernel := Kernel.Sort
      params := { g_iLevel := 2 ^ (k + 1), g_iLevelMask := 2 ^ (k + 1)
                  g_iHeight := MATRIX_HEIGHT, g_iWidth := MATRIX_WIDTH
                  CurrentCamPos := cam }
      groupsX := 1, groupsY := NUM_ELEMENTS / BITONIC_BLOCK_SIZE, groupsZ := 1 })

/-- The four dispatches of one global level as the specification words them: transpose,
sort, transpose back, sort. -/
def specGlobalLevel {F : Type} (cam : FVector4 F) (level : Nat) : List (Dispatch F) :=
  [ { kernel := Kernel.Transpose
      params := { g_iLevel := level / BITONIC_BLOCK_SIZE
                  g_iLevelMask := (level &&& not32 NUM_ELEMENTS) / BITONIC_BLOCK_SIZE
                  g_iHeight := MATRIX_WIDTH, g_iWidth := MATRIX_HEIGHT
                  CurrentCamPos := cam }
      groupsX := MATRIX_HEIGHT / 16, groupsY := MATRIX_WIDTH / 16, groupsZ := 1 },
    { kernel := Kernel.Sort
      params := { g_iLevel := level / BITONIC_BLOCK_SIZE
                  g_iLevelMask := (level &&& not32 NUM_ELEMENTS) / BITONIC_BLOCK_SIZE
                  g_iHeight := MATRIX_HEIGHT, g_iWidth := MATRIX_WIDTH
                  CurrentCamPos := cam }
      groupsX := 1, groupsY := NUM_ELEMENTS / BITONIC_BLOCK_SIZE, groupsZ := 1 },
    { kernel := Kernel.Transpose
      params := { g_iLevel := BITONIC_BLOCK_SIZE, g_iLevelMask := level
                  g_iHeight := MATRIX_WIDTH, g_iWidth := MATRIX_HEIGHT
                  CurrentCamPos := cam }
      groupsX := MATRIX_HEIGHT / 16, groupsY := MATRIX_WIDTH / 16, groupsZ := 1 },
    { kernel := Kernel.Sort
      params := { g_iLevel := BITONIC_BLOCK_SIZE, g_iLevelMask := level
                  g_iHeight := MATRIX_WIDTH, g_iWidth := MATRIX_HEIGHT
                  CurrentCamPos := cam }
      groupsX := 1, groupsY := NUM_ELEMENTS / BITONIC_BLOCK_SIZE, groupsZ := 1 } ]

/-- The global phase as the specification words it: the four dispatches for each level
`2 * BLOCK_SIZE, 4 * BLOCK_SIZE, ..., N`. -/
def specGlobalDispatches {F : Type} (cam : FVector4 F) : List (Dispatch F) :=
  (List.range 10).flatMap (fun k => specGlobalLevel cam (2 ^ (k + 1) * BITONIC_BLOCK_SIZE))

/-! ## Auxiliary definitions used in the statements -/

/-- The pixels of `n` rows starting at byte offset `p`. -/
def rowsPixels (read : Nat → Nat) (SizeX LolStride p n : Nat) : List FColor :=
  (List.range n).flatMap (fun r =>
    (List.range SizeX).map (fun k => unpackPixel (read (p + r * LolStride + 4 * k))))

/-- The invariant of the execution state machine with atomic consumer runs. -/
def QueueInvariant {F : Type} (w : World F) : Prop :=
  w.renderQueue ≤ 1 ∧ (w.renderQueue = 1 → w.self.bIsComputeShaderExecuting = true)

/-- The invariant of the interleaved machine: a sequence is enqueued or running, never both,
and whenever one is, the executing flag is set. -/
def InFlightInvariant {F : Type} (w : World F) : Prop :=
  (w.pc = RenderPC.idle →
    w.renderQueue ≤ 1 ∧ (w.renderQueue = 1 → w.self.bIsComputeShaderExecuting = true)) ∧
  (w.pc ≠ RenderPC.idle → w.renderQueue = 0 ∧ w.self.bIsComputeShaderExecuting = true)

/-- A value of `FComputeShaderVariableParameters()` over integer scalars, used for the
concrete instances below. -/
def vpZero : FComputeShaderVariableParameters Int :=
  { g_iLevel := 0, g_iLevelMask := 0, g_iHeight := 0, g_iWidth := 0
    CurrentCamPos := { X := 0, Y := 0, Z := 0, W := 0 } }

/-- The state reached from construction by: request a sort, let the render thread enter the
run and issue the first dispatch, then tear down. -/
def tornDownMidSequence : Option (World Int) :=
  runEvents header (World.constructed header vpZero)
    [Event.requestSort ⟨0, 0, 0, 1⟩, Event.render, Event.render, Event.teardown]

/-! ## The two kernels and the surface -/

/-- Modelled from the spec: the loop of the Sort Kernel over the comparison distances
`j = level / 2, level / 4, ..., 1` inside one workgroup, "the classic bitonic-merge step,
entirely within a single workgroup's shared-memory footprint".  The kernel itself is a
shader of the repository that is not among the C++ sources.  `shared` is the row segment
loaded by the workgroup, `base` the linear index of its first cell; thread `GI` keeps the
smaller or the larger of `shared[GI & ~j]`, `shared[GI | j]` according to the bit of
`levelMask` in its linear index.  The first argument bounds the number of iterations; `j`
is a 32-bit value that is halved, so 32 iterations always suffice. -/
def sortGroupLoop {α : Type} [LinearOrder α] (levelMask base : Nat) :
    Nat → Nat → (Nat → α) → (Nat → α)
  | 0, _, shared => shared
  | fuel + 1, j, shared =>
    if 0 < j then
      sortGroupLoop levelMask base fuel (j >>> 1) (fun GI =>
        if (decide (shared (GI &&& not32 j) ≤ shared (GI ||| j)) ==
            decide (levelMask &&& (base + GI) ≠ 0))
        then shared (GI ^^^ j) else shared GI)
    else shared

/-- Modelled from the spec: the Sort Kernel dispatched over `groups` workgroups, one per row
segment of `BITONIC_BLOCK_SIZE` cells of the surface ("dispatch with group count
`(1, N / BLOCK_SIZE, 1)`; this sorts every independent row-segment").  The kernel is a
shader of the repository that is not among the C++ sources. -/
def sortKernel {α : Type} [LinearOrder α] (c : Constants) (level levelMask groups : Nat)
    (surface : Nat → α) : Nat → α :=
  fun i =>
    let g := i / c.BITONIC_BLOCK_SIZE
    if g < groups then
      sortGroupLoop levelMask (g * c.BITONIC_BLOCK_SIZE) 32 (level >>> 1)
        (fun GI => surface (g * c.BITONIC_BLOCK_SIZE + GI)) (i % c.BITONIC_BLOCK_SIZE)
    else surface i

/-- Modelled from the spec: the Transpose Kernel, "swapping the row/column interpretation of
the flat array's matrix view": the surface read as `height` rows of `width` cells is
written back as `width` rows of `height` cells.  The kernel is a shader of the repository
that is not among the C++ sources. -/
def transposeKernel {α : Type} (height width : Nat) (surface : Nat → α) : Nat → α :=
  fun t => if t < height * width then surface ((t % height) * width + t / height) else surface t

/-- Modelled from the spec: the effect of one dispatch on the surface.  A kernel reads the
pass parameters `{level, levelMask, height, width}` set before its dispatch; the sort kernel
runs one workgroup per row segment, `groupsX * groupsY * groupsZ` of them.  The shaders are
not among the C++ sources. -/
def Dispatch.run {α F : Type} [LinearOrder α] (c : Constants) (d : Dispatch F)
    (surface : Nat → α) : Nat → α :=
  match d.kernel with
  | Kernel.Sort =>
    sortKernel c d.params.g_iLevel d.params.g_iLevelMask (d.groupsX * d.groupsY * d.groupsZ)
      surface
  | Kernel.Transpose => transposeKernel d.params.g_iHeight d.params.g_iWidth surface

/-- The effect of a sequence of dispatches, in order. -/
def runDispatches {α F : Type} [LinearOrder α] (c : Constants) :
    List (Dispatch F) → (Nat → α) → (Nat → α)
  | [], surface => surface
  | d :: ds, surface => runDispatches c ds (d.run c surface)

/-- The surface read as a flat row-major array of `n` cells. -/
def readSurface {α : Type} (n : Nat) (surface : Nat → α) : List α :=
  (List.range n).map surface

/-- The surface holding the records of a list, cell `i` holding record `i`. -/
def surfaceOf (records : List Nat) : Nat → Nat := fun i => records.getD i 0

/-- The constants of the test instance `N = 8`, `BLOCK_SIZE = 4`; the transpose tile is taken
as 2, which divides both matrix dimensions. -/
def toy : Constants :=
  { NUM_ELEMENTS := 8, BITONIC_BLOCK_SIZE := 4, TRANSPOSE_BLOCK_SIZE := 2 }

/-! ## The bitonic sorting network, used to reason about the kernels -/

/-- No four increasing positions of `[lo, lo + len)` carry alternating values: the array is
bitonic on that range. -/
def NoAlt (d : Nat → Bool) (lo len : Nat) : Prop :=
  ∀ i j k l, lo ≤ i → i < j → j < k → k < l → l < lo + len →
    ¬ (d i ≠ d j ∧ d j ≠ d k ∧ d k ≠ d l)

/-- The values on `[lo, lo + len)` are in order: ascending, or descending when `desc`. -/
def SortedOn {α : Type} [LinearOrder α] (desc : Bool) (f : Nat → α) (lo len : Nat) : Prop :=
  ∀ i j, lo ≤ i → i ≤ j → j < lo + len → if desc then f j ≤ f i else f i ≤ f j

/-- One round of compare-exchange at distance `2 ^ m`: the cell whose bit `m` is clear and
its partner `2 ^ m` above it keep the smaller and the larger of their two values, or the
larger and the smaller where `dir` holds. -/
def exchange {α : Type} [LinearOrder α] (dir : Nat → Bool) (m : Nat) (d : Nat → α) :
    Nat → α :=
  fun i =>
    if i.testBit m then
      (if dir i then min (d (i - 2 ^ m)) (d i) else max (d (i - 2 ^ m)) (d i))
    else
      (if dir i then max (d i) (d (i + 2 ^ m)) else min (d i) (d (i + 2 ^ m)))

/-- The rounds of one merge: distances `2 ^ (m - 1)`, ..., `2`, `1`, in this order. -/
def mergeRounds {α : Type} [LinearOrder α] (dir : Nat → Bool) :
    Nat → (Nat → α) → (Nat → α)
  | 0, d => d
  | m + 1, d => mergeRounds dir m (exchange dir m d)

/-- The bitonic sorting network: the merges of the levels `2, 4, ..., 2 ^ k`, the merge of
level `2 ^ j` running descending on the cells whose bit `j` is set. -/
def bitonicLevels {α : Type} [LinearOrder α] : Nat → (Nat → α) → (Nat → α)
  | 0, d => d
  | k + 1, d => mergeRounds (fun i => i.testBit (k + 1)) (k + 1) (bitonicLevels k d)

/-- Two surfaces hold the same records in their first `n` cells. -/
def AgreeBelow {α : Type} (n : Nat) (f g : Nat → α) : Prop := ∀ i, i < n → f i = g i

/-- The rounds of a merge at the distances `2 ^ (lo + n - 1)`, ..., `2 ^ lo`. -/
def roundsFrom {α : Type} [LinearOrder α] (dir : Nat → Bool) (lo : Nat) :
    Nat → (Nat → α) → (Nat → α)
  | 0, d => d
  | n + 1, d => roundsFrom dir lo n (exchange dir (lo + n) d)

/-! ## Lemmas on the schedule -/

theorem localLoop_fuel_mono {F : Type} (c : Constants) (fuel extra level : Nat)
    (vp : FComputeShaderVariableParameters F) (r) (h : localLoop c fuel level vp = some r) :
    localLoop c (fuel + extra) level vp = some r := by
  induction fuel generalizing level vp r with
  | zero => simp [localLoop] at h
  | succ n ih =>
    rw [Nat.add_right_comm]
    simp only [localLoop] at h ⊢
    split at h
    · rename_i hle
      simp only [hle, if_true]
      cases hrec : localLoop c n (mul32 level 2) (localBody c level vp).1 with
      | none => simp [hrec] at h
      | some q =>
        rw [ih _ _ _ hrec]
        simpa [hrec] using h
    · rename_i hle
      simp only [hle, if_false]
      exact h

theorem globalLoop_fuel_mono {F : Type} (c : Constants) (fuel extra level : Nat)
    (vp : FComputeShaderVariableParameters F) (r) (h : globalLoop c fuel level vp = some r) :
    globalLoop c (fuel + extra) level vp = some r := by
  induction fuel generalizing level vp r with
  | zero => simp [globalLoop] at h
  | succ n ih =>
    rw [Nat.add_right_comm]
    simp only [globalLoop] at h ⊢
    split at h
    · rename_i hle
      simp only [hle, if_true]
      cases hrec : globalLoop c n (mul32 level 2) (globalBody c level vp).1 with
      | none => simp [hrec] at h
      | some q =>
        rw [ih _ _ _ hrec]
        simpa [hrec] using h
    · rename_i hle
      simp only [hle, if_false]
      exact h

theorem localPhase_header {F : Type} (vp : FComputeShaderVariableParameters F) (extra : Nat) :
    localPhase header (11 + extra) vp =
      some (localConstants header BITONIC_BLOCK_SIZE vp, specLocalDispatches vp.CurrentCamPos) :=
  localLoop_fuel_mono header 11 extra 2 vp _ rfl

theorem globalPhase_header {F : Type} (vp : FComputeShaderVariableParameters F) (extra : Nat) :
    globalPhase header (11 + extra) vp =
      some (transposeBackConstants header NUM_ELEMENTS vp,
        specGlobalDispatches vp.CurrentCamPos) :=
  globalLoop_fuel_mono header 11 extra _ vp _ rfl

theorem dispatchSequence_header {F : Type} (vp : FComputeShaderVariableParameters F)
    (extra : Nat) :
    dispatchSequence header (11 + extra) vp =
      some (transposeBackConstants header NUM_ELEMENTS vp,
        specLocalDispatches vp.CurrentCamPos ++ specGlobalDispatches vp.CurrentCamPos) := by
  simp only [dispatchSequence, localPhase_header, globalPhase_header]
  rfl

theorem specDispatches_length {F : Type} (cam : FVector4 F) :
    (specLocalDispatches cam ++ specGlobalDispatches cam).length = 50 := rfl

/-! ## Lemmas on the state machine -/

theorem ExecuteComputeShaderInternal_header {F : Type} (w : World F) (extra : Nat)
    (h : w.self.bIsUnloading = false) :
    ExecuteComputeShaderInternal header (11 + extra) w =
      some { w with
             self := { w.self with
                       bIsComputeShaderExecuting := false
                       bSave := false
                       BufferUAV := true
                       VariableParameters :=
                         transposeBackConstants header NUM_ELEMENTS w.self.VariableParameters }
             commands := w.commands ++
               (specLocalDispatches w.self.VariableParameters.CurrentCamPos ++
                 specGlobalDispatches w.self.VariableParameters.CurrentCamPos).map
                   Command.dispatch ++
               (if w.self.bSave then [Command.saveScreenshot] else []) } := by
  simp only [ExecuteComputeShaderInternal, ParallelBitonicSort, h, dispatchSequence_header]
  cases hs : w.self.bSave <;> simp

theorem releaseViews_flags {F : Type} (s : FComputeShader F) :
    (releaseViews s).bIsComputeShaderExecuting = s.bIsComputeShaderExecuting ∧
    (releaseViews s).bIsUnloading = s.bIsUnloading ∧
    (releaseViews s).bSave = s.bSave ∧
    (releaseViews s).VariableParameters = s.VariableParameters ∧
    (releaseViews s).PointPosData = s.PointPosData ∧
    (releaseViews s).TextureUAV = false ∧
    (releaseViews s).BufferUAV = false ∧
    (releaseViews s).BufferUAV2 = false := by
  unfold releaseViews
  cases h1 : s.TextureUAV <;> cases h2 : s.BufferUAV <;> cases h3 : s.BufferUAV2 <;>
    simp [h1, h2, h3]

theorem ParallelBitonicSort_queue {F : Type} (c : Constants) (fuel : Nat)
    (w w1 : World F) (h : ParallelBitonicSort c fuel w = some w1) :
    w1.renderQueue = w.renderQueue := by
  unfold ParallelBitonicSort at h
  cases hd : dispatchSequence c fuel w.self.VariableParameters with
  | none => simp [hd] at h
  | some r =>
    obtain ⟨vp, ds⟩ := r
    simp only [hd, Option.some.injEq] at h
    subst h
    rfl

theorem ExecuteComputeShaderInternal_queue {F : Type} (c : Constants) (fuel : Nat)
    (w w1 : World F) (h : ExecuteComputeShaderInternal c fuel w = some w1) :
    w1.renderQueue = w.renderQueue := by
  unfold ExecuteComputeShaderInternal at h
  cases hu : w.self.bIsUnloading with
  | true =>
    simp only [hu, if_true, Option.some.injEq] at h
    subst h
    rfl
  | false =>
    cases hp : ParallelBitonicSort c fuel w with
    | none => simp [hu, hp] at h
    | some w2 =>
      have hq := ParallelBitonicSort_queue c fuel w w2 hp
      simp only [hu, hp, Bool.false_eq_true, if_false, Option.some.injEq] at h
      subst h
      cases hs : w2.self.bSave <;> simpa [hs] using hq

theorem queueInvariant_step {F : Type} (c : Constants) (fuel : Nat) (w w1 : World F)
    (r : Request F) (hw : QueueInvariant w) (h : r.apply c fuel w = some w1) :
    QueueInvariant w1 := by
  obtain ⟨h1, h2⟩ := hw
  cases r with
  | requestSort cam =>
    simp only [Request.apply, Option.some.injEq] at h
    subst h
    unfold ExecuteComputeShader
    split
    · exact ⟨h1, h2⟩
    · rename_i hg
      simp only [Bool.or_eq_true, not_or, Bool.not_eq_true] at hg
      have hq : w.renderQueue = 0 := by
        rcases Nat.lt_or_ge w.renderQueue 1 with hlt | hge
        · omega
        · have := h2 (by omega)
          simp [this] at hg
      exact ⟨by simp [hq], fun _ => rfl⟩
  | consumerRun =>
    simp only [Request.apply, runRenderCommand] at h
    split at h
    · simp at h
    · have hq := ExecuteComputeShaderInternal_queue c fuel _ _ h
      simp only at hq
      exact ⟨by omega, fun h1' => by omega⟩
  | requestSave =>
    simp only [Request.apply, Option.some.injEq] at h
    subst h
    exact ⟨h1, h2⟩
  | teardown =>
    simp only [Request.apply, Option.some.injEq] at h
    subst h
    exact ⟨h1, h2⟩

theorem reachable_queueInvariant {F : Type} [Neg F] [One F] (c : Constants) (fuel : Nat)
    (vp0 : FComputeShaderVariableParameters F) (w : World F)
    (h : Reachable c fuel vp0 w) : QueueInvariant w := by
  induction h with
  | init => exact ⟨Nat.zero_le _, fun h => by simp [World.constructed] at h⟩
  | step r _ hstep ih => exact queueInvariant_step c fuel _ _ r ih hstep

theorem renderStep_unloading_idle {F : Type} (c : Constants) (w w1 : World F)
    (hu : w.self.bIsUnloading = true) (hpc : w.pc = RenderPC.idle)
    (h : renderStep c w = some w1) :
    w1.self.bIsUnloading = true ∧ w1.pc = RenderPC.idle ∧ w1.commands = w.commands ∧
    w1.self.TextureUAV = false ∧ w1.self.BufferUAV = false ∧ w1.self.BufferUAV2 = false := by
  unfold renderStep at h
  rw [hpc] at h
  simp only [hu, if_true] at h
  split at h
  · simp at h
  · simp only [Option.some.injEq] at h
    subst h
    have := releaseViews_flags w.self
    simp only [this, hu, hpc, and_self]

theorem event_unloading_idle {F : Type} (c : Constants) (w w1 : World F) (e : Event F)
    (hu : w.self.bIsUnloading = true) (hpc : w.pc = RenderPC.idle)
    (h : e.apply c w = some w1) :
    w1.self.bIsUnloading = true ∧ w1.pc = RenderPC.idle ∧ w1.commands = w.commands := by
  cases e with
  | requestSort cam =>
    simp only [Event.apply, ExecuteComputeShader, hu, Bool.true_or, if_true,
      Option.some.injEq] at h
    subst h
    exact ⟨hu, hpc, rfl⟩
  | requestSave =>
    simp only [Event.apply, Option.some.injEq] at h
    subst h
    exact ⟨hu, hpc, rfl⟩
  | teardown =>
    simp only [Event.apply, Option.some.injEq] at h
    subst h
    exact ⟨rfl, hpc, rfl⟩
  | render =>
    have := renderStep_unloading_idle c w w1 hu hpc h
    exact ⟨this.1, this.2.1, this.2.2.1⟩

theorem runEvents_unloading_idle {F : Type} (c : Constants) (es : List (Event F)) :
    ∀ (w w1 : World F), w.self.bIsUnloading = true → w.pc = RenderPC.idle →
      runEvents c w es = some w1 →
      w1.self.bIsUnloading = true ∧ w1.pc = RenderPC.idle ∧ w1.commands = w.commands := by
  induction es with
  | nil =>
    intro w w1 hu hpc h
    simp only [runEvents, Option.some.injEq] at h
    subst h
    exact ⟨hu, hpc, rfl⟩
  | cons e es ih =>
    intro w w1 hu hpc h
    simp only [runEvents] at h
    cases he : e.apply c w with
    | none => simp [he] at h
    | some w2 =>
      simp only [he] at h
      obtain ⟨h1, h2, h3⟩ := event_unloading_idle c w w2 e hu hpc he
      obtain ⟨h4, h5, h6⟩ := ih w2 w1 h1 h2 h
      exact ⟨h4, h5, h6.trans h3⟩

theorem inFlight_requestSort {F : Type} (cam : FVector4 F) (w : World F)
    (hw : InFlightInvariant w) : InFlightInvariant (ExecuteComputeShader cam w) := by
  obtain ⟨h1, h2⟩ := hw
  unfold ExecuteComputeShader
  split
  · exact ⟨h1, h2⟩
  · rename_i hg
    simp only [Bool.or_eq_true, not_or, Bool.not_eq_true] at hg
    have hpc : w.pc = RenderPC.idle := by
      by_contra hne
      have := (h2 hne).2
      simp [this] at hg
    have hq : w.renderQueue = 0 := by
      obtain ⟨hle, hex⟩ := h1 hpc
      rcases Nat.lt_or_ge w.renderQueue 1 with hlt | hge
      · omega
      · have := hex (by omega)
        simp [this] at hg
    exact ⟨fun _ => ⟨by simp [hq], fun _ => rfl⟩, fun hne => absurd hpc hne⟩

theorem inFlight_renderStep {F : Type} (c : Constants) (w w1 : World F)
    (hw : InFlightInvariant w) (h : renderStep c w = some w1) : InFlightInvariant w1 := by
  obtain ⟨h1, h2⟩ := hw
  unfold renderStep at h
  split at h
  · rename_i hpc
    obtain ⟨hle, hex⟩ := h1 hpc
    split at h
    · simp at h
    · rename_i hq
      have hq1 : w.renderQueue = 1 := by omega
      split at h
      · simp only [Option.some.injEq] at h
        subst h
        exact ⟨fun _ => ⟨by simp [hq1], fun h0 => by simp [hq1] at h0⟩,
          fun hne => absurd hpc hne⟩
      · simp only [Option.some.injEq] at h
        subst h
        exact ⟨fun h0 => by simp at h0, fun _ => ⟨by simp [hq1], hex hq1⟩⟩
  · rename_i level hpc
    have hne : w.pc ≠ RenderPC.idle := by rw [hpc]; simp
    split at h <;>
    · simp only [Option.some.injEq] at h
      subst h
      exact ⟨fun h0 => by simp at h0, fun _ => h2 hne⟩
  · rename_i level hpc
    have hne : w.pc ≠ RenderPC.idle := by rw [hpc]; simp
    split at h
    · simp only [Option.some.injEq] at h
      subst h
      exact ⟨fun h0 => by simp at h0, fun _ => h2 hne⟩
    · simp only [Option.some.injEq] at h
      subst h
      exact ⟨fun h0 => by simp at h0, fun _ => h2 hne⟩
  · rename_i level hpc
    have hne : w.pc ≠ RenderPC.idle := by rw [hpc]; simp
    simp only [Option.some.injEq] at h
    subst h
    exact ⟨fun h0 => by simp at h0, fun _ => h2 hne⟩
  · rename_i level hpc
    have hne : w.pc ≠ RenderPC.idle := by rw [hpc]; simp
    simp only [Option.some.injEq] at h
    subst h
    exact ⟨fun h0 => by simp at h0, fun _ => h2 hne⟩
  · rename_i level sub _ _ _ hpc
    have hne : w.pc ≠ RenderPC.idle := by rw [hpc]; simp
    simp only [Option.some.injEq] at h
    subst h
    exact ⟨fun h0 => by simp at h0, fun _ => h2 hne⟩
  · rename_i hpc
    have hne : w.pc ≠ RenderPC.idle := by rw [hpc]; simp
    have hq := (h2 hne).1
    simp only [Option.some.injEq] at h
    subst h
    refine ⟨fun _ => ⟨?_, fun h0 => ?_⟩, fun h0 => absurd rfl h0⟩
    · split <;> simp [hq]
    · exfalso
      revert h0
      split <;> simp [hq]

theorem inFlight_event {F : Type} (c : Constants) (w w1 : World F) (e : Event F)
    (hw : InFlightInvariant w) (h : e.apply c w = some w1) : InFlightInvariant w1 := by
  cases e with
  | requestSort cam =>
    simp only [Event.apply, Option.some.injEq] at h
    subst h
    exact inFlight_requestSort cam w hw
  | requestSave =>
    simp only [Event.apply, Option.some.injEq] at h
    subst h
    exact hw
  | teardown =>
    simp only [Event.apply, Option.some.injEq] at h
    subst h
    exact hw
  | render => exact inFlight_renderStep c w w1 hw h

theorem inFlight_runEvents {F : Type} (c : Constants) (es : List (Event F)) :
    ∀ (w w1 : World F), InFlightInvariant w → runEvents c w es = some w1 →
      InFlightInvariant w1 := by
  induction es with
  | nil =>
    intro w w1 hw h
    simp only [runEvents, Option.some.injEq] at h
    subst h
    exact hw
  | cons e es ih =>
    intro w w1 hw h
    simp only [runEvents] at h
    cases he : e.apply c w with
    | none => simp [he] at h
    | some w2 =>
      simp only [he] at h
      exact ih w2 w1 (inFlight_event c w w2 e hw he) h

theorem inFlight_constructed {F : Type} [Neg F] [One F] (c : Constants)
    (vp0 : FComputeShaderVariableParameters F) :
    InFlightInvariant (World.constructed c vp0) :=
  ⟨fun _ => ⟨Nat.zero_le _, fun h => by simp [World.constructed] at h⟩,
    fun h => absurd rfl h⟩

/-- The render thread advancing 54 times without interruption, from the entry of
`ExecuteComputeShaderInternal` to its last line, does what the uninterrupted run does. -/
theorem render_uninterrupted {F : Type} (s : FComputeShader F) (q : Nat)
    (cs : List (Command F)) (hu : s.bIsUnloading = false) :
    runEvents header { self := s, renderQueue := q + 1, commands := cs, pc := RenderPC.idle }
        (List.replicate 54 Event.render) =
      ExecuteComputeShaderInternal header 11
        { self := s, renderQueue := q, commands := cs, pc := RenderPC.idle } := by
  rw [show (11 : Nat) = 11 + 0 from rfl, ExecuteComputeShaderInternal_header _ 0 hu]
  simp only [List.replicate, runEvents, Event.apply, renderStep, hu]
  cases hs : s.bSave <;>
  simp [mul32, UINT_SIZE, header, specLocalDispatches, specGlobalDispatches, specGlobalLevel,
    localConstants, transposeConstants, transposeBackConstants, sortDispatch, transposeDispatch,
    Constants.MATRIX_WIDTH, Constants.MATRIX_HEIGHT, List.range_succ, NUM_ELEMENTS,
    BITONIC_BLOCK_SIZE, MATRIX_WIDTH, MATRIX_HEIGHT, not32, hs]

/-! ## Lemmas on the read back and on the staging copy -/

theorem and_shiftLeft_mask_shiftRight (v k : Nat) :
    (v &&& ((2 ^ 8 - 1) <<< k)) >>> k = (v / 2 ^ k) % 2 ^ 8 := by
  apply Nat.eq_of_testBit_eq
  intro j
  rw [← Nat.shiftRight_eq_div_pow]
  simp only [Nat.testBit_shiftRight, Nat.testBit_and, Nat.testBit_shiftLeft,
    Nat.testBit_two_pow_sub_one, Nat.testBit_mod_two_pow]
  by_cases hj : j < 8 <;> simp [hj, Bool.and_comm]

theorem colLoop_eq (read : Nat → Nat) (SizeX : Nat) (n : Nat) :
    ∀ (fuel Col PixelPtr : Nat) (Bitmap : List FColor), Col + n = SizeX → SizeX < UINT_SIZE →
      n < fuel →
      colLoop read SizeX fuel Col PixelPtr Bitmap =
        some (Bitmap ++ (List.range n).map (fun k => unpackPixel (read (PixelPtr + 4 * k)))) := by
  induction n with
  | zero =>
    intro fuel Col PixelPtr Bitmap h _ hf
    obtain ⟨f, rfl⟩ : ∃ f, fuel = f + 1 := ⟨fuel - 1, by omega⟩
    have : ¬ Col < SizeX := by omega
    simp [colLoop, this]
  | succ n ih =>
    intro fuel Col PixelPtr Bitmap h hX hf
    obtain ⟨f, rfl⟩ : ∃ f, fuel = f + 1 := ⟨fuel - 1, by omega⟩
    have hlt : Col < SizeX := by omega
    have hmod : (Col + 1) % UINT_SIZE = Col + 1 := Nat.mod_eq_of_lt (by omega)
    simp only [colLoop, hlt, if_true, hmod]
    rw [ih f (Col + 1) (PixelPtr + 4) _ (by omega) hX (by omega)]
    simp only [List.range_succ_eq_map, List.map_cons, List.map_map, List.append_assoc,
      List.singleton_append, Nat.mul_zero, Nat.add_zero]
    have : ∀ k : Nat, PixelPtr + 4 + 4 * k = PixelPtr + 4 * k.succ := by
      intro k
      omega
    simp only [this, Function.comp_def]

theorem rowLoop_eq (read : Nat → Nat) (SizeX SizeY LolStride colFuel : Nat) (n : Nat) :
    ∀ (fuel Row p : Nat) (Bitmap : List FColor), Row + n = SizeY → SizeY < UINT_SIZE →
      (0 < SizeY → SizeX < UINT_SIZE) → SizeX < colFuel → n < fuel →
      rowLoop read SizeX SizeY LolStride colFuel fuel Row p Bitmap =
        some (Bitmap ++ rowsPixels read SizeX LolStride p n) := by
  induction n with
  | zero =>
    intro fuel Row p Bitmap h _ _ _ hf
    obtain ⟨f, rfl⟩ : ∃ f, fuel = f + 1 := ⟨fuel - 1, by omega⟩
    have : ¬ Row < SizeY := by omega
    simp [rowLoop, this, rowsPixels]
  | succ n ih =>
    intro fuel Row p Bitmap h hY hX hc hf
    obtain ⟨f, rfl⟩ : ∃ f, fuel = f + 1 := ⟨fuel - 1, by omega⟩
    have hlt : Row < SizeY := by omega
    have hmod : (Row + 1) % UINT_SIZE = Row + 1 := Nat.mod_eq_of_lt (by omega)
    simp only [rowLoop, hlt, if_true, hmod]
    rw [colLoop_eq read SizeX SizeX colFuel 0 p Bitmap (by omega) (hX (by omega)) hc]
    simp only []
    rw [ih f (Row + 1) (p + LolStride) _ (by omega) hY hX hc (by omega)]
    simp only [rowsPixels, List.range_succ_eq_map, List.flatMap_cons, List.flatMap_map,
      List.append_assoc, Nat.zero_mul, Nat.add_zero]
    congr 2
    have : ∀ r : Nat, p + LolStride + r * LolStride = p + r.succ * LolStride := by
      intro r
      rw [Nat.succ_mul]
      omega
    simp only [this, Function.comp_def]

theorem rowsPixels_length (read : Nat → Nat) (SizeX LolStride p n : Nat) :
    (rowsPixels read SizeX LolStride p n).length = n * SizeX := by
  induction n with
  | zero => simp [rowsPixels]
  | succ n ih =>
    have : rowsPixels read SizeX LolStride p (n + 1) =
        rowsPixels read SizeX LolStride p n ++
          (List.range SizeX).map (fun k => unpackPixel (read (p + n * LolStride + 4 * k))) := by
      simp [rowsPixels, List.range_succ, List.flatMap_append]
    rw [this, List.length_append, ih]
    simp [Nat.add_mul]

theorem rowsPixels_get (read : Nat → Nat) (SizeX LolStride p n Row Col : Nat)
    (hR : Row < n) (hC : Col < SizeX) :
    (rowsPixels read SizeX LolStride p n)[Row * SizeX + Col]? =
      some (unpackPixel (read (p + Row * LolStride + 4 * Col))) := by
  induction n with
  | zero => omega
  | succ n ih =>
    have e : rowsPixels read SizeX LolStride p (n + 1) =
        rowsPixels read SizeX LolStride p n ++
          (List.range SizeX).map (fun k => unpackPixel (read (p + n * LolStride + 4 * k))) := by
      simp [rowsPixels, List.range_succ, List.flatMap_append]
    rw [e]
    by_cases hlt : Row < n
    · have hle : (Row + 1) * SizeX ≤ n * SizeX := Nat.mul_le_mul_right _ hlt
      rw [List.getElem?_append_left (by rw [rowsPixels_length]; rw [Nat.add_mul] at hle; omega)]
      exact ih hlt
    · have hRn : Row = n := by omega
      subst hRn
      rw [List.getElem?_append_right (by rw [rowsPixels_length]; omega), rowsPixels_length]
      simp [hC]

theorem copyLoop_eq {F : Type} (data : List (FLinearColor F)) :
    ∀ (i : Nat) (staging : List (FVector4 F)), i + data.length ≤ staging.length →
      ∃ out, copyLoop data i staging = Except.ok out ∧ out.length = staging.length ∧
        (∀ j, j < data.length → out[i + j]? = (data[j]?).map FVector4.ofLinearColor) ∧
        (∀ j, j < i ∨ i + data.length ≤ j → out[j]? = staging[j]?) := by
  induction data with
  | nil =>
    intro i staging _
    exact ⟨staging, rfl, rfl, by intro j hj; simp at hj, by intro j _; rfl⟩
  | cons x rest ih =>
    intro i staging h
    simp only [List.length_cons] at h
    have hi : i < staging.length := by omega
    obtain ⟨out, hout, hlen, hcopied, hrest⟩ :=
      ih (i + 1) (staging.set i (FVector4.ofLinearColor x)) (by simp; omega)
    refine ⟨out, by simp [copyLoop, hi, hout], by simpa using hlen, ?_, ?_⟩
    · intro j hj
      cases j with
      | zero =>
        rw [Nat.add_zero, hrest i (Or.inl (by omega))]
        simp [hi]
      | succ j =>
        have := hcopied j (by simpa using hj)
        rw [show i + (j + 1) = i + 1 + j by omega, this]
        simp
    · intro j hj
      rw [hrest j (by simp only [List.length_cons] at hj; omega)]
      rw [List.getElem?_set_ne (by simp only [List.length_cons] at hj; omega)]

/-! ## The network sorts -/

theorem bool_halfClean_and (x1 x2 x3 x4 y1 y2 y3 y4 : Bool)
    (t1 : ¬ (x1 ≠ x2 ∧ x2 ≠ x3 ∧ x3 ≠ x4))
    (t2 : ¬ (x1 ≠ x2 ∧ x2 ≠ x3 ∧ x3 ≠ y4))
    (t3 : ¬ (x4 ≠ y1 ∧ y1 ≠ y2 ∧ y2 ≠ y3))
    (t4 : ¬ (y1 ≠ y2 ∧ y2 ≠ y3 ∧ y3 ≠ y4))
    (t5 : ¬ (x1 ≠ x2 ∧ x2 ≠ y3 ∧ y3 ≠ y4))
    (t6 : ¬ (x2 ≠ x3 ∧ x3 ≠ x4 ∧ x4 ≠ y1)) :
    ¬ ((x1 && y1) ≠ (x2 && y2) ∧ (x2 && y2) ≠ (x3 && y3) ∧ (x3 && y3) ≠ (x4 && y4)) := by
  cases x1 <;> cases x2 <;> cases x3 <;> cases x4 <;> cases y1 <;> cases y2 <;> cases y3 <;>
    cases y4 <;> simp_all

theorem bool_halfClean_or (x1 x2 x3 x4 y1 y2 y3 y4 : Bool)
    (t1 : ¬ (x1 ≠ x2 ∧ x2 ≠ x3 ∧ x3 ≠ x4))
    (t2 : ¬ (x1 ≠ x2 ∧ x2 ≠ x3 ∧ x3 ≠ y4))
    (t3 : ¬ (x4 ≠ y1 ∧ y1 ≠ y2 ∧ y2 ≠ y3))
    (t4 : ¬ (y1 ≠ y2 ∧ y2 ≠ y3 ∧ y3 ≠ y4))
    (t5 : ¬ (x1 ≠ x2 ∧ x2 ≠ y3 ∧ y3 ≠ y4))
    (t6 : ¬ (x2 ≠ x3 ∧ x3 ≠ x4 ∧ x4 ≠ y1)) :
    ¬ ((x1 || y1) ≠ (x2 || y2) ∧ (x2 || y2) ≠ (x3 || y3) ∧ (x3 || y3) ≠ (x4 || y4)) := by
  cases x1 <;> cases x2 <;> cases x3 <;> cases x4 <;> cases y1 <;> cases y2 <;> cases y3 <;>
    cases y4 <;> simp_all

/-- Six instances of bitonicity of a range of `2 * M` cells, at positions drawn from
`i < j < k < l` of the first half and their partners in the second half. -/
theorem noAlt_instances (d : Nat → Bool) (lo M : Nat) (h : NoAlt d lo (2 * M))
    (i j k l : Nat) (hij : i < j) (hjk : j < k) (hkl : k < l) (hl : l < M) :
    (¬ (d (lo + i) ≠ d (lo + j) ∧ d (lo + j) ≠ d (lo + k) ∧ d (lo + k) ≠ d (lo + l))) ∧
    (¬ (d (lo + i) ≠ d (lo + j) ∧ d (lo + j) ≠ d (lo + k) ∧ d (lo + k) ≠ d (lo + M + l))) ∧
    (¬ (d (lo + l) ≠ d (lo + M + i) ∧ d (lo + M + i) ≠ d (lo + M + j) ∧
        d (lo + M + j) ≠ d (lo + M + k))) ∧
    (¬ (d (lo + M + i) ≠ d (lo + M + j) ∧ d (lo + M + j) ≠ d (lo + M + k) ∧
        d (lo + M + k) ≠ d (lo + M + l))) ∧
    (¬ (d (lo + i) ≠ d (lo + j) ∧ d (lo + j) ≠ d (lo + M + k) ∧
        d (lo + M + k) ≠ d (lo + M + l))) ∧
    (¬ (d (lo + j) ≠ d (lo + k) ∧ d (lo + k) ≠ d (lo + l) ∧ d (lo + l) ≠ d (lo + M + i))) := by
  refine ⟨h _ _ _ _ ?_ ?_ ?_ ?_ ?_, h _ _ _ _ ?_ ?_ ?_ ?_ ?_, h _ _ _ _ ?_ ?_ ?_ ?_ ?_,
    h _ _ _ _ ?_ ?_ ?_ ?_ ?_, h _ _ _ _ ?_ ?_ ?_ ?_ ?_, h _ _ _ _ ?_ ?_ ?_ ?_ ?_⟩ <;> omega

/-- The half cleaner on a bitonic range of `2 * M` cells: the `M` cells that receive the
pointwise `and` of the two halves form a bitonic range. -/
theorem halfClean_and (d e : Nat → Bool) (lo M off : Nat) (h : NoAlt d lo (2 * M))
    (he : ∀ r, r < M → e (off + r) = (d (lo + r) && d (lo + M + r))) :
    NoAlt e off M := by
  intro i j k l hlo hij hjk hkl hl
  obtain ⟨i, rfl⟩ : ∃ r, i = off + r := ⟨i - off, by omega⟩
  obtain ⟨j, rfl⟩ : ∃ r, j = off + r := ⟨j - off, by omega⟩
  obtain ⟨k, rfl⟩ : ∃ r, k = off + r := ⟨k - off, by omega⟩
  obtain ⟨l, rfl⟩ : ∃ r, l = off + r := ⟨l - off, by omega⟩
  obtain ⟨t1, t2, t3, t4, t5, t6⟩ :=
    noAlt_instances d lo M h i j k l (by omega) (by omega) (by omega) (by omega)
  rw [he i (by omega), he j (by omega), he k (by omega), he l (by omega)]
  exact bool_halfClean_and _ _ _ _ _ _ _ _ t1 t2 t3 t4 t5 t6

/-- The half cleaner on a bitonic range of `2 * M` cells: the `M` cells that receive the
pointwise `or` of the two halves form a bitonic range. -/
theorem halfClean_or (d e : Nat → Bool) (lo M off : Nat) (h : NoAlt d lo (2 * M))
    (he : ∀ r, r < M → e (off + r) = (d (lo + r) || d (lo + M + r))) :
    NoAlt e off M := by
  intro i j k l hlo hij hjk hkl hl
  obtain ⟨i, rfl⟩ : ∃ r, i = off + r := ⟨i - off, by omega⟩
  obtain ⟨j, rfl⟩ : ∃ r, j = off + r := ⟨j - off, by omega⟩
  obtain ⟨k, rfl⟩ : ∃ r, k = off + r := ⟨k - off, by omega⟩
  obtain ⟨l, rfl⟩ : ∃ r, l = off + r := ⟨l - off, by omega⟩
  obtain ⟨t1, t2, t3, t4, t5, t6⟩ :=
    noAlt_instances d lo M h i j k l (by omega) (by omega) (by omega) (by omega)
  rw [he i (by omega), he j (by omega), he k (by omega), he l (by omega)]
  exact bool_halfClean_or _ _ _ _ _ _ _ _ t1 t2 t3 t4 t5 t6

/-- After the half cleaner on a bitonic range, the half holding the pointwise `and` is all
`false` or the half holding the pointwise `or` is all `true`. -/
theorem halfClean_split (d : Nat → Bool) (lo M : Nat) (h : NoAlt d lo (2 * M)) :
    (∀ r, r < M → (d (lo + r) && d (lo + M + r)) = false) ∨
    (∀ r, r < M → (d (lo + r) || d (lo + M + r)) = true) := by
  by_contra hcon
  rw [not_or] at hcon
  obtain ⟨h1, h2⟩ := hcon
  push_neg at h1 h2
  obtain ⟨p, hp, hp1⟩ := h1
  obtain ⟨q, hq, hq1⟩ := h2
  simp only [ne_eq, Bool.not_eq_false, Bool.and_eq_true] at hp1
  simp only [ne_eq, Bool.not_eq_true, Bool.or_eq_false_iff] at hq1
  rcases Nat.lt_trichotomy p q with hpq | hpq | hpq
  · exact h (lo + p) (lo + q) (lo + M + p) (lo + M + q) (by omega) (by omega) (by omega)
      (by omega) (by omega) (by simp [hp1, hq1])
  · subst hpq
    simp [hp1] at hq1
  · exact h (lo + q) (lo + p) (lo + M + q) (lo + M + p) (by omega) (by omega) (by omega)
      (by omega) (by omega) (by simp [hp1, hq1])

/-- A range whose first half ascends and whose second half descends is bitonic. -/
theorem noAlt_of_up_down (d : Nat → Bool) (lo M : Nat)
    (hup : SortedOn false d lo M) (hdown : SortedOn true d (lo + M) M) :
    NoAlt d lo (2 * M) := by
  intro i j k l hlo hij hjk hkl hl ⟨h1, h2, h3⟩
  have up : ∀ x y, lo ≤ x → x ≤ y → y < lo + M → d x ≤ d y := by
    intro x y hx hxy hy
    simpa [SortedOn] using hup x y hx hxy hy
  have down : ∀ x y, lo + M ≤ x → x ≤ y → y < lo + M + M → d y ≤ d x := by
    intro x y hx hxy hy
    simpa [SortedOn] using hdown x y hx hxy hy
  by_cases hk : k < lo + M
  · have a := up i j hlo (by omega) (by omega)
    have b := up j k (by omega) (by omega) hk
    revert h1 h2 h3 a b
    cases d i <;> cases d j <;> cases d k <;> cases d l <;> simp
  · by_cases hj : j < lo + M
    · have a := up i j hlo (by omega) hj
      have b := down k l (by omega) (by omega) (by omega)
      revert h1 h2 h3 a b
      cases d i <;> cases d j <;> cases d k <;> cases d l <;> simp
    · have a := down j k (by omega) (by omega) (by omega)
      have b := down k l (by omega) (by omega) (by omega)
      revert h1 h2 h3 a b
      cases d i <;> cases d j <;> cases d k <;> cases d l <;> simp

theorem testBit_block (a s j : Nat) (hs : s < 2 ^ j) :
    (a * 2 ^ j + s).testBit j = decide (a % 2 = 1) := by
  rw [Nat.testBit_to_div_mod, Nat.add_comm, Nat.add_mul_div_right _ _ (Nat.two_pow_pos j),
    Nat.div_eq_of_lt hs, Nat.zero_add]

theorem exchange_lower {α : Type} [LinearOrder α] (dir : Nat → Bool) (m : Nat) (d : Nat → α)
    (a r : Nat) (hr : r < 2 ^ m) :
    exchange dir m d (a * 2 ^ (m + 1) + r) =
      if dir (a * 2 ^ (m + 1) + r) then
        max (d (a * 2 ^ (m + 1) + r)) (d (a * 2 ^ (m + 1) + 2 ^ m + r))
      else min (d (a * 2 ^ (m + 1) + r)) (d (a * 2 ^ (m + 1) + 2 ^ m + r)) := by
  have hb : (a * 2 ^ (m + 1) + r).testBit m = false := by
    have : a * 2 ^ (m + 1) = (2 * a) * 2 ^ m := by rw [pow_succ]; ring
    rw [this, testBit_block _ _ _ hr]
    simp
  have e : a * 2 ^ (m + 1) + r + 2 ^ m = a * 2 ^ (m + 1) + 2 ^ m + r := by omega
  simp only [exchange, hb, Bool.false_eq_true, if_false, e]

theorem exchange_upper {α : Type} [LinearOrder α] (dir : Nat → Bool) (m : Nat) (d : Nat → α)
    (a r : Nat) (hr : r < 2 ^ m) :
    exchange dir m d (a * 2 ^ (m + 1) + 2 ^ m + r) =
      if dir (a * 2 ^ (m + 1) + 2 ^ m + r) then
        min (d (a * 2 ^ (m + 1) + r)) (d (a * 2 ^ (m + 1) + 2 ^ m + r))
      else max (d (a * 2 ^ (m + 1) + r)) (d (a * 2 ^ (m + 1) + 2 ^ m + r)) := by
  have hb : (a * 2 ^ (m + 1) + 2 ^ m + r).testBit m = true := by
    have : a * 2 ^ (m + 1) + 2 ^ m = (2 * a + 1) * 2 ^ m := by rw [pow_succ]; ring
    rw [this, testBit_block _ _ _ hr]
    have : (2 * a + 1) % 2 = 1 := by omega
    simp [this]
  have e : a * 2 ^ (m + 1) + 2 ^ m + r - 2 ^ m = a * 2 ^ (m + 1) + r := by omega
  simp only [exchange, hb, if_true, e]

theorem bool_min (x y : Bool) : min x y = (x && y) := by cases x <;> cases y <;> rfl

theorem bool_max (x y : Bool) : max x y = (x || y) := by cases x <;> cases y <;> rfl

/-- A merge leaves a block on which the array is constant unchanged. -/
theorem mergeRounds_const (k : Nat) :
    ∀ (dir : Nat → Bool) (d : Nat → Bool) (a : Nat) (v : Bool),
      (∀ s, s < 2 ^ k → d (a * 2 ^ k + s) = v) →
      ∀ s, s < 2 ^ k → mergeRounds dir k d (a * 2 ^ k + s) = v := by
  induction k with
  | zero =>
    intro dir d a v h s hs
    exact h s hs
  | succ k ih =>
    intro dir d a v h s hs
    have hpow : 2 ^ (k + 1) = 2 ^ k + 2 ^ k := by rw [pow_succ]; omega
    have hlow : ∀ r, r < 2 ^ k → exchange dir k d ((2 * a) * 2 ^ k + r) = v := by
      intro r hr
      have e : (2 * a) * 2 ^ k = a * 2 ^ (k + 1) := by rw [pow_succ]; ring
      rw [e, exchange_lower dir k d a r hr, h r (by omega)]
      have := h (2 ^ k + r) (by omega)
      rw [← Nat.add_assoc] at this
      rw [this]
      split <;> simp
    have hup : ∀ r, r < 2 ^ k → exchange dir k d ((2 * a + 1) * 2 ^ k + r) = v := by
      intro r hr
      have e : (2 * a + 1) * 2 ^ k = a * 2 ^ (k + 1) + 2 ^ k := by rw [pow_succ]; ring
      rw [e, exchange_upper dir k d a r hr, h r (by omega)]
      have := h (2 ^ k + r) (by omega)
      rw [← Nat.add_assoc] at this
      rw [this]
      split <;> simp
    show mergeRounds dir k (exchange dir k d) (a * 2 ^ (k + 1) + s) = v
    by_cases hsk : s < 2 ^ k
    · have := ih dir (exchange dir k d) (2 * a) v hlow s hsk
      have e : (2 * a) * 2 ^ k = a * 2 ^ (k + 1) := by rw [pow_succ]; ring
      rwa [e] at this
    · have := ih dir (exchange dir k d) (2 * a + 1) v hup (s - 2 ^ k) (by omega)
      have e : (2 * a + 1) * 2 ^ k + (s - 2 ^ k) = a * 2 ^ (k + 1) + s := by
        have : (2 * a + 1) * 2 ^ k = a * 2 ^ (k + 1) + 2 ^ k := by rw [pow_succ]; ring
        omega
      rwa [e] at this

/-- A merge sorts every bitonic block of `2 ^ k` cells in the direction that `dir` gives on
that block. -/
theorem mergeRounds_sorts (k : Nat) :
    ∀ (dir : Nat → Bool) (d : Nat → Bool) (a : Nat) (desc : Bool),
      (∀ s, s < 2 ^ k → dir (a * 2 ^ k + s) = desc) →
      NoAlt d (a * 2 ^ k) (2 ^ k) →
      SortedOn desc (mergeRounds dir k d) (a * 2 ^ k) (2 ^ k) := by
  induction k with
  | zero =>
    intro dir d a desc _ _ i j hi hij hj
    have : i = j := by simp at hj; omega
    subst this
    split <;> exact le_refl _
  | succ k ih =>
    intro dir d a desc hdir hd
    have hpow : 2 ^ (k + 1) = 2 * 2 ^ k := by rw [pow_succ]; omega
    have elo : (2 * a) * 2 ^ k = a * 2 ^ (k + 1) := by rw [pow_succ]; ring
    have eup : (2 * a + 1) * 2 ^ k = a * 2 ^ (k + 1) + 2 ^ k := by rw [pow_succ]; ring
    have hd2 : NoAlt d (a * 2 ^ (k + 1)) (2 * 2 ^ k) := by
      intro i j k' l h1 h2 h3 h4 h5
      exact hd i j k' l h1 h2 h3 h4 (by omega)
    have hdlo : ∀ s, s < 2 ^ k → dir ((2 * a) * 2 ^ k + s) = desc := by
      intro s hs
      rw [elo]
      exact hdir s (by omega)
    have hdup : ∀ s, s < 2 ^ k → dir ((2 * a + 1) * 2 ^ k + s) = desc := by
      intro s hs
      rw [eup, Nat.add_assoc]
      exact hdir (2 ^ k + s) (by omega)
    have xlo : ∀ r, r < 2 ^ k → exchange dir k d (a * 2 ^ (k + 1) + r) =
        if desc then (d (a * 2 ^ (k + 1) + r) || d (a * 2 ^ (k + 1) + 2 ^ k + r))
        else (d (a * 2 ^ (k + 1) + r) && d (a * 2 ^ (k + 1) + 2 ^ k + r)) := by
      intro r hr
      rw [exchange_lower dir k d a r hr, hdir r (by omega), bool_min, bool_max]
    have xup : ∀ r, r < 2 ^ k → exchange dir k d (a * 2 ^ (k + 1) + 2 ^ k + r) =
        if desc then (d (a * 2 ^ (k + 1) + r) && d (a * 2 ^ (k + 1) + 2 ^ k + r))
        else (d (a * 2 ^ (k + 1) + r) || d (a * 2 ^ (k + 1) + 2 ^ k + r)) := by
      intro r hr
      have := hdir (2 ^ k + r) (by omega)
      rw [← Nat.add_assoc] at this
      rw [exchange_upper dir k d a r hr, this, bool_min, bool_max]
    have hsplit := halfClean_split d (a * 2 ^ (k + 1)) (2 ^ k) hd2
    -- the two halves after the round are bitonic
    have nlo : NoAlt (exchange dir k d) ((2 * a) * 2 ^ k) (2 ^ k) := by
      rw [elo]
      cases desc with
      | false => exact halfClean_and d _ _ _ _ hd2 (fun r hr => by simpa using xlo r hr)
      | true => exact halfClean_or d _ _ _ _ hd2 (fun r hr => by simpa using xlo r hr)
    have nup : NoAlt (exchange dir k d) ((2 * a + 1) * 2 ^ k) (2 ^ k) := by
      rw [eup]
      cases desc with
      | false => exact halfClean_or d _ _ _ _ hd2 (fun r hr => by simpa using xup r hr)
      | true => exact halfClean_and d _ _ _ _ hd2 (fun r hr => by simpa using xup r hr)
    have slo := ih dir (exchange dir k d) (2 * a) desc hdlo nlo
    have sup := ih dir (exchange dir k d) (2 * a + 1) desc hdup nup
    rw [elo] at slo
    rw [eup] at sup
    -- one half is constant, before and after the remaining rounds
    have clo : ∀ v, (∀ r, r < 2 ^ k → exchange dir k d (a * 2 ^ (k + 1) + r) = v) →
        ∀ r, r < 2 ^ k → mergeRounds dir k (exchange dir k d) (a * 2 ^ (k + 1) + r) = v := by
      intro v hv r hr
      have := mergeRounds_const k dir (exchange dir k d) (2 * a) v
        (fun s hs => by rw [elo]; exact hv s hs) r hr
      rwa [elo] at this
    have cup : ∀ v, (∀ r, r < 2 ^ k → exchange dir k d (a * 2 ^ (k + 1) + 2 ^ k + r) = v) →
        ∀ r, r < 2 ^ k →
          mergeRounds dir k (exchange dir k d) (a * 2 ^ (k + 1) + 2 ^ k + r) = v := by
      intro v hv r hr
      have := mergeRounds_const k dir (exchange dir k d) (2 * a + 1) v
        (fun s hs => by rw [eup]; exact hv s hs) r hr
      rwa [eup] at this
    intro i j hi hij hj
    show if desc then mergeRounds dir k (exchange dir k d) j ≤
        mergeRounds dir k (exchange dir k d) i
      else mergeRounds dir k (exchange dir k d) i ≤ mergeRounds dir k (exchange dir k d) j
    by_cases hjl : j < a * 2 ^ (k + 1) + 2 ^ k
    · exact slo i j hi hij hjl
    · by_cases hil : a * 2 ^ (k + 1) + 2 ^ k ≤ i
      · exact sup i j hil hij (by omega)
      · obtain ⟨ri, rfl⟩ : ∃ r, i = a * 2 ^ (k + 1) + r := ⟨i - a * 2 ^ (k + 1), by omega⟩
        obtain ⟨rj, rfl⟩ : ∃ r, j = a * 2 ^ (k + 1) + 2 ^ k + r :=
          ⟨j - (a * 2 ^ (k + 1) + 2 ^ k), by omega⟩
        have hri : ri < 2 ^ k := by omega
        have hrj : rj < 2 ^ k := by omega
        cases desc with
        | false =>
          simp only [Bool.false_eq_true, if_false] at xlo xup ⊢
          rcases hsplit with hs | hs
          · rw [clo false (fun r hr => by rw [xlo r hr]; exact hs r hr) ri hri]
            exact Bool.false_le _
          · rw [cup true (fun r hr => by rw [xup r hr]; exact hs r hr) rj hrj]
            exact Bool.le_true _
        | true =>
          simp only [if_true] at xlo xup ⊢
          rcases hsplit with hs | hs
          · rw [cup false (fun r hr => by rw [xup r hr]; exact hs r hr) rj hrj]
            exact Bool.false_le _
          · rw [clo true (fun r hr => by rw [xlo r hr]; exact hs r hr) ri hri]
            exact Bool.le_true _

/-- After the levels `2, ..., 2 ^ k` every block of `2 ^ k` cells of a Boolean array is
sorted, ascending on the even blocks and descending on the odd ones. -/
theorem bitonicLevels_sorts_bool (k : Nat) :
    ∀ (d : Nat → Bool) (a : Nat),
      SortedOn (decide (a % 2 = 1)) (bitonicLevels k d) (a * 2 ^ k) (2 ^ k) := by
  induction k with
  | zero =>
    intro d a i j hi hij hj
    have : i = j := by simp at hj; omega
    subst this
    split <;> exact le_refl _
  | succ k ih =>
    intro d a
    have elo : (2 * a) * 2 ^ k = a * 2 ^ (k + 1) := by rw [pow_succ]; ring
    have eup : (2 * a + 1) * 2 ^ k = a * 2 ^ (k + 1) + 2 ^ k := by rw [pow_succ]; ring
    have hpow : 2 ^ (k + 1) = 2 * 2 ^ k := by rw [pow_succ]; omega
    have hlo := ih d (2 * a)
    have hup := ih d (2 * a + 1)
    have p0 : (2 * a) % 2 = 0 := by omega
    have p1 : (2 * a + 1) % 2 = 1 := by omega
    rw [elo] at hlo
    rw [eup] at hup
    simp only [p0, p1, decide_True, decide_False, zero_ne_one] at hlo hup
    have hn := noAlt_of_up_down (bitonicLevels k d) (a * 2 ^ (k + 1)) (2 ^ k) hlo hup
    have hn2 : NoAlt (bitonicLevels k d) (a * 2 ^ (k + 1)) (2 ^ (k + 1)) := by
      intro i j k' l h1 h2 h3 h4 h5
      exact hn i j k' l h1 h2 h3 h4 (by omega)
    exact mergeRounds_sorts (k + 1) (fun i => i.testBit (k + 1)) (bitonicLevels k d) a _
      (fun s hs => testBit_block a s (k + 1) hs) hn2

theorem exchange_map {α β : Type} [LinearOrder α] [LinearOrder β] (f : α → β)
    (hf : Monotone f) (dir : Nat → Bool) (m : Nat) (d : Nat → α) :
    exchange dir m (fun i => f (d i)) = fun i => f (exchange dir m d i) := by
  funext i
  simp only [exchange]
  split <;> split <;> simp only [hf.map_min, hf.map_max]

theorem mergeRounds_map {α β : Type} [LinearOrder α] [LinearOrder β] (f : α → β)
    (hf : Monotone f) (dir : Nat → Bool) (m : Nat) :
    ∀ d : Nat → α,
      mergeRounds dir m (fun i => f (d i)) = fun i => f (mergeRounds dir m d i) := by
  induction m with
  | zero => intro d; rfl
  | succ m ih =>
    intro d
    show mergeRounds dir m (exchange dir m (fun i => f (d i))) = _
    rw [exchange_map f hf, ih]
    rfl

theorem bitonicLevels_map {α β : Type} [LinearOrder α] [LinearOrder β] (f : α → β)
    (hf : Monotone f) (k : Nat) (d : Nat → α) :
    bitonicLevels k (fun i => f (d i)) = fun i => f (bitonicLevels k d i) := by
  induction k with
  | zero => rfl
  | succ k ih =>
    show mergeRounds _ (k + 1) (bitonicLevels k (fun i => f (d i))) = _
    rw [ih, mergeRounds_map f hf]
    rfl

/-- The zero-one principle applied to the network: after the levels `2, ..., 2 ^ k` the first
`2 ^ k` cells of any array are in ascending order. -/
theorem bitonicLevels_sorts {α : Type} [LinearOrder α] (k : Nat) (d : Nat → α) (i j : Nat)
    (hij : i ≤ j) (hj : j < 2 ^ k) : bitonicLevels k d i ≤ bitonicLevels k d j := by
  by_contra hcon
  have hlt : bitonicLevels k d j < bitonicLevels k d i := lt_of_not_le hcon
  have hmono : Monotone (fun x : α => decide (bitonicLevels k d j < x)) := by
    intro x y hxy
    by_cases hx : bitonicLevels k d j < x
    · have hy : bitonicLevels k d j < y := lt_of_lt_of_le hx hxy
      simp [hx, hy]
    · simp [hx]
  have hs := bitonicLevels_sorts_bool k
    (fun t => decide (bitonicLevels k d j < d t)) 0 i j (by omega) hij (by omega)
  rw [bitonicLevels_map (fun x : α => decide (bitonicLevels k d j < x)) hmono k d] at hs
  simp only [Nat.zero_mod, zero_ne_one, decide_False, Bool.false_eq_true, if_false, hlt,
    decide_True, lt_self_iff_false] at hs
  exact absurd hs (by decide)

/-! ## The kernels run the rounds of the network -/

theorem testBit_split (a r m q : Nat) (bit : Bool) (hr : r < 2 ^ m) :
    (2 ^ (m + 1) * a + (2 ^ m * bit.toNat + r)).testBit q =
      if q < m then r.testBit q else if q = m then bit else a.testBit (q - (m + 1)) := by
  have hb : 2 ^ m * bit.toNat + r < 2 ^ (m + 1) := by
    have : bit.toNat ≤ 1 := Bool.toNat_le bit
    have : 2 ^ m * bit.toNat ≤ 2 ^ m * 1 := Nat.mul_le_mul_left _ this
    rw [pow_succ]
    omega
  rw [Nat.testBit_mul_pow_two_add a hb q, Nat.testBit_mul_pow_two_add bit.toNat hr q]
  by_cases h1 : q < m
  · have : q < m + 1 := by omega
    simp [h1, this]
  · by_cases h2 : q = m
    · subst h2
      cases bit <;> simp
    · have : ¬ q < m + 1 := by omega
      simp [h1, h2, this]

theorem exists_split (i m : Nat) :
    ∃ a r, r < 2 ^ m ∧ i = 2 ^ (m + 1) * a + (2 ^ m * (i.testBit m).toNat + r) := by
  refine ⟨i / 2 ^ (m + 1), i % 2 ^ m, Nat.mod_lt _ (Nat.two_pow_pos m), ?_⟩
  have h1 : i = 2 ^ m * (i / 2 ^ m) + i % 2 ^ m := (Nat.div_add_mod i (2 ^ m)).symm
  have h2 : i / 2 ^ m = 2 * (i / 2 ^ m / 2) + i / 2 ^ m % 2 :=
    (Nat.div_add_mod (i / 2 ^ m) 2).symm
  have h3 : i / 2 ^ m / 2 = i / 2 ^ (m + 1) := by
    rw [Nat.div_div_eq_div_mul, pow_succ]
  have h4 : (i.testBit m).toNat = i / 2 ^ m % 2 := by
    rw [Nat.testBit_to_div_mod]
    rcases Nat.mod_two_eq_zero_or_one (i / 2 ^ m) with h | h <;> simp [h]
  rw [h4, ← h3]
  calc i = 2 ^ m * (i / 2 ^ m) + i % 2 ^ m := h1
    _ = 2 ^ m * (2 * (i / 2 ^ m / 2) + i / 2 ^ m % 2) + i % 2 ^ m := by rw [← h2]
    _ = 2 ^ (m + 1) * (i / 2 ^ m / 2) + (2 ^ m * (i / 2 ^ m % 2) + i % 2 ^ m) := by
        rw [pow_succ]; ring

theorem add_two_pow_of_clear (i m : Nat) (h : i.testBit m = false) :
    ∀ q, (i + 2 ^ m).testBit q = (i.testBit q || decide (q = m)) := by
  intro q
  obtain ⟨a, r, hr, hi⟩ := exists_split i m
  rw [h] at hi
  have e1 : i + 2 ^ m = 2 ^ (m + 1) * a + (2 ^ m * (true).toNat + r) := by
    simp only [Bool.toNat_true, Bool.toNat_false] at hi ⊢
    omega
  have e2 := testBit_split a r m q false hr
  rw [← hi] at e2
  rw [e1, testBit_split a r m q true hr, e2]
  by_cases h1 : q < m
  · have : q ≠ m := by omega
    simp [h1, this]
  · by_cases h2 : q = m
    · simp [h2]
    · simp [h1, h2]

theorem sub_two_pow_of_set (i m : Nat) (h : i.testBit m = true) :
    2 ^ m ≤ i ∧ ∀ q, (i - 2 ^ m).testBit q = (i.testBit q && !decide (q = m)) := by
  refine ⟨Nat.testBit_implies_ge h, ?_⟩
  intro q
  obtain ⟨a, r, hr, hi⟩ := exists_split i m
  rw [h] at hi
  have e1 : i - 2 ^ m = 2 ^ (m + 1) * a + (2 ^ m * (false).toNat + r) := by
    simp only [Bool.toNat_true, Bool.toNat_false] at hi ⊢
    omega
  have e2 := testBit_split a r m q true hr
  rw [← hi] at e2
  rw [e1, testBit_split a r m q false hr, e2]
  by_cases h1 : q < m
  · have : q ≠ m := by omega
    simp [h1, this]
  · by_cases h2 : q = m
    · simp [h2]
    · simp [h1, h2]

theorem or_two_pow (i m : Nat) :
    i ||| 2 ^ m = if i.testBit m then i else i + 2 ^ m := by
  apply Nat.eq_of_testBit_eq
  intro q
  rw [Nat.testBit_or, Nat.testBit_two_pow]
  cases h : i.testBit m with
  | true =>
    simp only [if_true]
    by_cases hq : m = q
    · subst hq; simp [h]
    · simp [hq]
  | false =>
    simp only [Bool.false_eq_true, if_false]
    rw [add_two_pow_of_clear i m h q]
    congr 1
    simp [eq_comm]

theorem xor_two_pow (i m : Nat) :
    i ^^^ 2 ^ m = if i.testBit m then i - 2 ^ m else i + 2 ^ m := by
  apply Nat.eq_of_testBit_eq
  intro q
  rw [Nat.testBit_xor, Nat.testBit_two_pow]
  cases h : i.testBit m with
  | true =>
    simp only [if_true]
    rw [(sub_two_pow_of_set i m h).2 q]
    by_cases hq : m = q
    · subst hq; simp [h]
    · have : ¬ q = m := fun e => hq e.symm
      simp [hq, this]
  | false =>
    simp only [Bool.false_eq_true, if_false]
    rw [add_two_pow_of_clear i m h q]
    by_cases hq : m = q
    · subst hq; simp [h]
    · have : ¬ q = m := fun e => hq e.symm
      simp [hq, this]

theorem and_not32_two_pow (i m : Nat) (hi : i < 2 ^ 32) (hm : m < 32) :
    i &&& not32 (2 ^ m) = if i.testBit m then i - 2 ^ m else i := by
  have hpow : 2 ^ m % UINT_SIZE = 2 ^ m :=
    Nat.mod_eq_of_lt (Nat.pow_lt_pow_right (by decide) hm)
  apply Nat.eq_of_testBit_eq
  intro q
  have hnot : (not32 (2 ^ m)).testBit q = (decide (q < 32) && !decide (m = q)) := by
    unfold not32
    rw [hpow]
    have : UINT_SIZE - 1 = 2 ^ 32 - 1 := rfl
    rw [this, Nat.testBit_xor, Nat.testBit_two_pow_sub_one, Nat.testBit_two_pow]
    by_cases h1 : q < 32
    · by_cases h2 : m = q <;> simp [h1, h2]
    · have : m ≠ q := by omega
      simp [h1, this]
  have hhigh : ¬ q < 32 → i.testBit q = false := by
    intro h
    exact Nat.testBit_lt_two_pow (lt_of_lt_of_le hi (Nat.pow_le_pow_right (by decide) (by omega)))
  rw [Nat.testBit_and, hnot]
  cases h : i.testBit m with
  | true =>
    simp only [if_true]
    rw [(sub_two_pow_of_set i m h).2 q]
    by_cases h1 : q < 32
    · by_cases h2 : m = q
      · subst h2; simp [h]
      · have : ¬ q = m := fun e => h2 e.symm
        simp [h1, h2, this]
    · simp [hhigh h1]
  | false =>
    simp only [Bool.false_eq_true, if_false]
    by_cases h1 : q < 32
    · by_cases h2 : m = q
      · subst h2; simp [h]
      · simp [h1, h2]
    · simp [hhigh h1]

theorem mask_two_pow (k i : Nat) : decide (2 ^ k &&& i ≠ 0) = i.testBit k := by
  rw [Nat.two_pow_and]
  cases h : i.testBit k <;> simp [Nat.pos_iff_ne_zero.mp (Nat.two_pow_pos k)]

theorem add_two_pow_lt (i m n : Nat) (h : i.testBit m = false) (hi : i < 2 ^ n) (hm : m < n) :
    i + 2 ^ m < 2 ^ n := by
  have := or_two_pow i m
  rw [h] at this
  simp only [Bool.false_eq_true, if_false] at this
  rw [← this]
  exact Nat.or_lt_two_pow hi (Nat.pow_lt_pow_right (by decide) hm)

theorem testBit_add_block (g GI b m : Nat) (hGI : GI < 2 ^ b) (hm : m < b) :
    (g * 2 ^ b + GI).testBit m = GI.testBit m := by
  rw [Nat.mul_comm, Nat.testBit_mul_pow_two_add g hGI m]
  simp [hm]

theorem kernelRound_eq {α : Type} [LinearOrder α] (mask g b m : Nat) (sh s : Nat → α)
    (hb : b ≤ 32) (hm : m < b) (hsh : ∀ GI, GI < 2 ^ b → sh GI = s (g * 2 ^ b + GI))
    (GI : Nat) (hGI : GI < 2 ^ b) :
    (if (decide (sh (GI &&& not32 (2 ^ m)) ≤ sh (GI ||| 2 ^ m)) ==
          decide (mask &&& (g * 2 ^ b + GI) ≠ 0))
      then sh (GI ^^^ 2 ^ m) else sh GI) =
      exchange (fun i => decide (mask &&& i ≠ 0)) m s (g * 2 ^ b + GI) := by
  have h32 : GI < 2 ^ 32 := lt_of_lt_of_le hGI (Nat.pow_le_pow_right (by decide) hb)
  have hpm : 0 < 2 ^ m := Nat.two_pow_pos m
  rw [and_not32_two_pow GI m h32 (by omega), or_two_pow, xor_two_pow]
  simp only [exchange, testBit_add_block g GI b m hGI hm]
  cases hbit : GI.testBit m with
  | true =>
    have hge := (sub_two_pow_of_set GI m hbit).1
    have e : g * 2 ^ b + GI - 2 ^ m = g * 2 ^ b + (GI - 2 ^ m) := by omega
    simp only [if_true, e]
    rw [hsh (GI - 2 ^ m) (by omega), hsh GI hGI]
    by_cases hd : (mask &&& (g * 2 ^ b + GI) ≠ 0) <;>
      by_cases hle : s (g * 2 ^ b + (GI - 2 ^ m)) ≤ s (g * 2 ^ b + GI) <;>
      simp [hd, hle, min_def, max_def]
  | false =>
    have hlt := add_two_pow_lt GI m b hbit hGI hm
    have e : g * 2 ^ b + GI + 2 ^ m = g * 2 ^ b + (GI + 2 ^ m) := by omega
    simp only [Bool.false_eq_true, if_false, e]
    rw [hsh (GI + 2 ^ m) hlt, hsh GI hGI]
    by_cases hd : (mask &&& (g * 2 ^ b + GI) ≠ 0) <;>
      by_cases hle : s (g * 2 ^ b + GI) ≤ s (g * 2 ^ b + (GI + 2 ^ m)) <;>
      simp [hd, hle, min_def, max_def]

theorem sortGroupLoop_zero {α : Type} [LinearOrder α] (mask base fuel : Nat)
    (sh : Nat → α) : sortGroupLoop mask base fuel 0 sh = sh := by
  cases fuel <;> simp [sortGroupLoop]

theorem sortGroupLoop_eq {α : Type} [LinearOrder α] (mask g b : Nat) (hb : b ≤ 32)
    (m : Nat) :
    ∀ (fuel : Nat) (sh s : Nat → α), m < fuel → m < b →
      (∀ GI, GI < 2 ^ b → sh GI = s (g * 2 ^ b + GI)) →
      ∀ GI, GI < 2 ^ b →
        sortGroupLoop mask (g * 2 ^ b) fuel (2 ^ m) sh GI =
          mergeRounds (fun i => decide (mask &&& i ≠ 0)) (m + 1) s (g * 2 ^ b + GI) := by
  induction m with
  | zero =>
    intro fuel sh s hf hm hsh GI hGI
    obtain ⟨f, rfl⟩ : ∃ f, fuel = f + 1 := ⟨fuel - 1, by omega⟩
    have h1 : (2 ^ 0 : Nat) >>> 1 = 0 := by decide
    simp only [sortGroupLoop, Nat.two_pow_pos, if_true, h1, sortGroupLoop_zero]
    exact kernelRound_eq mask g b 0 sh s hb hm hsh GI hGI
  | succ m ih =>
    intro fuel sh s hf hm hsh GI hGI
    obtain ⟨f, rfl⟩ : ∃ f, fuel = f + 1 := ⟨fuel - 1, by omega⟩
    have h1 : (2 ^ (m + 1) : Nat) >>> 1 = 2 ^ m := by
      rw [Nat.shiftRight_eq_div_pow, pow_succ]
      simp
    simp only [sortGroupLoop, Nat.two_pow_pos, if_true, h1]
    exact ih f _ (exchange (fun i => decide (mask &&& i ≠ 0)) (m + 1) s) (by omega) (by omega)
      (fun GI hGI => kernelRound_eq mask g b (m + 1) sh s hb hm hsh GI hGI) GI hGI

/-- The loop of the sort kernel halves a 32-bit `j`: the fuel of 32 iterations is never
exhausted before `j` reaches zero, more fuel changes nothing. -/
theorem sortGroupLoop_fuel {α : Type} [LinearOrder α] (mask base : Nat) (fuel : Nat) :
    ∀ (j extra : Nat) (sh : Nat → α), j < 2 ^ fuel →
      sortGroupLoop mask base (fuel + extra) j sh = sortGroupLoop mask base fuel j sh := by
  induction fuel with
  | zero =>
    intro j extra sh hj
    have : j = 0 := by simpa using hj
    subst this
    rw [sortGroupLoop_zero, sortGroupLoop_zero]
  | succ fuel ih =>
    intro j extra sh hj
    rw [Nat.add_right_comm]
    simp only [sortGroupLoop]
    split
    · apply ih
      rw [Nat.shiftRight_eq_div_pow]
      rw [pow_succ] at hj
      omega
    · rfl

theorem exchange_agree {α : Type} [LinearOrder α] (dir : Nat → Bool) (n m : Nat)
    (hm : m < n) (d e : Nat → α) (h : AgreeBelow (2 ^ n) d e) :
    AgreeBelow (2 ^ n) (exchange dir m d) (exchange dir m e) := by
  intro i hi
  have hpm : 0 < 2 ^ m := Nat.two_pow_pos m
  simp only [exchange]
  cases hbit : i.testBit m with
  | true =>
    rw [h i hi, h (i - 2 ^ m) (by omega)]
    simp
  | false =>
    rw [h i hi, h (i + 2 ^ m) (add_two_pow_lt i m n hbit hi hm)]
    simp

theorem mergeRounds_agree {α : Type} [LinearOrder α] (dir : Nat → Bool) (n m : Nat) :
    ∀ (d e : Nat → α), m ≤ n → AgreeBelow (2 ^ n) d e →
      AgreeBelow (2 ^ n) (mergeRounds dir m d) (mergeRounds dir m e) := by
  induction m with
  | zero => intro d e _ h; exact h
  | succ m ih =>
    intro d e hm h
    exact ih _ _ (by omega) (exchange_agree dir n m (by omega) d e h)

/-- The sort kernel of the header constants, dispatched over all 1024 row segments with
level `2 ^ k` (at most the block size), runs the `k` rounds of a merge on the first
`2 ^ 20` cells. -/
theorem sortKernel_header {α : Type} [LinearOrder α] (k mask : Nat) (hk1 : 1 ≤ k)
    (hk : k ≤ 10) (s e : Nat → α) (h : AgreeBelow (2 ^ 20) s e) :
    AgreeBelow (2 ^ 20) (sortKernel header (2 ^ k) mask 1024 s)
      (mergeRounds (fun i => decide (mask &&& i ≠ 0)) k e) := by
  intro i hi
  obtain ⟨m, rfl⟩ : ∃ m, k = m + 1 := ⟨k - 1, by omega⟩
  have hg : i / 1024 < 1024 := by omega
  have hB : header.BITONIC_BLOCK_SIZE = 2 ^ 10 := rfl
  have h1 : (2 ^ (m + 1) : Nat) >>> 1 = 2 ^ m := by
    rw [Nat.shiftRight_eq_div_pow, pow_succ]
    simp
  have hmod : i % 2 ^ 10 < 2 ^ 10 := Nat.mod_lt _ (by decide)
  have hi2 : i / 2 ^ 10 * 2 ^ 10 + i % 2 ^ 10 = i := Nat.div_add_mod' i (2 ^ 10)
  have hg2 : i / 2 ^ 10 < 1024 := by omega
  simp only [sortKernel, hB, hg2, if_true, h1]
  rw [sortGroupLoop_eq mask (i / 2 ^ 10) 10 (by decide) m 32 _ s (by omega) (by omega)
    (fun GI _ => rfl) (i % 2 ^ 10) hmod, hi2]
  exact mergeRounds_agree _ 20 (m + 1) s e (by omega) h i hi

theorem mergeRounds_split {α : Type} [LinearOrder α] (dir : Nat → Bool) (lo n : Nat) :
    ∀ d : Nat → α, mergeRounds dir (lo + n) d = mergeRounds dir lo (roundsFrom dir lo n d) := by
  induction n with
  | zero => intro d; rfl
  | succ n ih =>
    intro d
    show mergeRounds dir (lo + n) (exchange dir (lo + n) d) = _
    rw [ih]
    rfl

theorem agreeBelow_trans {α : Type} {n : Nat} {f g h : Nat → α} (h1 : AgreeBelow n f g)
    (h2 : AgreeBelow n g h) : AgreeBelow n f h :=
  fun i hi => (h1 i hi).trans (h2 i hi)

theorem transpose_agree {α : Type} (s e : Nat → α) (h : AgreeBelow (2 ^ 20) s e) :
    AgreeBelow (2 ^ 20) (transposeKernel 1024 1024 s) (transposeKernel 1024 1024 e) := by
  intro t ht
  have h1 : t < 1024 * 1024 := by omega
  simp only [transposeKernel, h1, if_true]
  exact h _ (by omega)

theorem transpose_transpose {α : Type} (s : Nat → α) :
    AgreeBelow (2 ^ 20) (transposeKernel 1024 1024 (transposeKernel 1024 1024 s)) s := by
  intro t ht
  have h1 : t < 1024 * 1024 := by omega
  have h2 : t % 1024 * 1024 + t / 1024 < 1024 * 1024 := by omega
  simp only [transposeKernel, h1, h2, if_true]
  congr 1
  omega

theorem testBit_transposed (t q : Nat) (ht : t < 2 ^ 20) :
    (t % 1024 * 1024 + t / 1024).testBit (10 + q) = (decide (q < 10) && t.testBit q) := by
  have e : t % 1024 * 1024 + t / 1024 = 2 ^ 10 * (t % 2 ^ 10) + t / 1024 := by
    norm_num
    ring
  have hlt : t / 1024 < 2 ^ 10 := by omega
  rw [e, Nat.testBit_mul_pow_two_add _ hlt, Nat.add_sub_cancel_left, Nat.testBit_mod_two_pow]
  simp

theorem exchange_transposed {α : Type} [LinearOrder α] (dir dirT : Nat → Bool) (m : Nat)
    (hm : m < 10) (hdir : ∀ t, t < 2 ^ 20 → dirT t = dir (t % 1024 * 1024 + t / 1024))
    (s : Nat → α) :
    AgreeBelow (2 ^ 20) (exchange dirT m (transposeKernel 1024 1024 s))
      (transposeKernel 1024 1024 (exchange dir (10 + m) s)) := by
  intro t ht
  have h1 : t < 1024 * 1024 := by omega
  have hpm : 0 < 2 ^ m := Nat.two_pow_pos m
  have hpow : 2 ^ (10 + m) = 1024 * 2 ^ m := by rw [pow_add]; norm_num
  have hbitT := testBit_transposed t m ht
  simp only [hm, decide_True, Bool.true_and] at hbitT
  have hr : t % 1024 < 2 ^ 10 := by omega
  have hbr : (t % 1024).testBit m = t.testBit m := by
    have := Nat.testBit_mod_two_pow t 10 m
    simp only [hm, decide_True, Bool.true_and] at this
    exact this
  simp only [transposeKernel, h1, if_true, exchange, hbitT, hdir t ht]
  cases hbit : t.testBit m with
  | true =>
    rw [hbit] at hbr
    have hge := (sub_two_pow_of_set (t % 1024) m hbr).1
    have h2 : t - 2 ^ m < 1024 * 1024 := by omega
    have e : (t - 2 ^ m) % 1024 * 1024 + (t - 2 ^ m) / 1024 =
        t % 1024 * 1024 + t / 1024 - 2 ^ (10 + m) := by omega
    simp only [h2, if_true, e]
  | false =>
    rw [hbit] at hbr
    have hlt := add_two_pow_lt (t % 1024) m 10 hbr hr hm
    have h2 : t + 2 ^ m < 1024 * 1024 := by omega
    have e : (t + 2 ^ m) % 1024 * 1024 + (t + 2 ^ m) / 1024 =
        t % 1024 * 1024 + t / 1024 + 2 ^ (10 + m) := by omega
    simp only [h2, if_true, e, Bool.false_eq_true, if_false]

theorem mergeRounds_transposed {α : Type} [LinearOrder α] (dir dirT : Nat → Bool)
    (hdir : ∀ t, t < 2 ^ 20 → dirT t = dir (t % 1024 * 1024 + t / 1024)) (n : Nat) :
    ∀ s : Nat → α, n ≤ 10 →
      AgreeBelow (2 ^ 20) (mergeRounds dirT n (transposeKernel 1024 1024 s))
        (transposeKernel 1024 1024 (roundsFrom dir 10 n s)) := by
  induction n with
  | zero => intro s _ i _; rfl
  | succ n ih =>
    intro s hn
    have h1 := exchange_transposed dir dirT n (by omega) hdir s
    have h2 := mergeRounds_agree dirT 20 n _ _ (by omega) h1
    exact agreeBelow_trans h2 (ih (exchange dir (10 + n) s) (by omega))

/-- A local level of the schedule: the sort kernel with `level = levelMask = 2 ^ k` is the
merge of level `2 ^ k` of the network. -/
theorem localLevel_header {α : Type} [LinearOrder α] (k : Nat) (hk1 : 1 ≤ k) (hk : k ≤ 10)
    (s e : Nat → α) (h : AgreeBelow (2 ^ 20) s e) :
    AgreeBelow (2 ^ 20) (sortKernel header (2 ^ k) (2 ^ k) 1024 s)
      (mergeRounds (fun i => i.testBit k) k e) := by
  have := sortKernel_header k (2 ^ k) hk1 hk s e h
  simpa only [mask_two_pow] using this

theorem rowSort_header {α : Type} [LinearOrder α] (k : Nat) (s e : Nat → α)
    (h : AgreeBelow (2 ^ 20) s e) :
    AgreeBelow (2 ^ 20) (sortKernel header (2 ^ 10) (2 ^ k) 1024 s)
      (mergeRounds (fun i => i.testBit k) 10 e) := by
  have := sortKernel_header 10 (2 ^ k) (by decide) (by decide) s e h
  simpa only [mask_two_pow] using this

theorem globalMask (k : Nat) (hk1 : 11 ≤ k) (hk : k ≤ 20) :
    (2 ^ k &&& not32 (2 ^ 20)) / 2 ^ 10 = if k = 20 then 0 else 2 ^ (k - 10) := by
  have hlt : (2 : Nat) ^ k < 2 ^ 32 := Nat.pow_lt_pow_right (by decide) (by omega)
  rw [and_not32_two_pow (2 ^ k) 20 hlt (by decide), Nat.testBit_two_pow]
  by_cases h : k = 20
  · subst h
    simp
  · simp only [h, decide_False, Bool.false_eq_true, if_false]
    rw [Nat.pow_div (by omega) (by decide)]

/-- A global level of the schedule: transpose, sort the columns, transpose back, sort the
rows is the merge of level `2 ^ k` of the network. -/
theorem globalLevel_header {α : Type} [LinearOrder α] (k : Nat) (hk1 : 11 ≤ k) (hk : k ≤ 20)
    (s e : Nat → α) (h : AgreeBelow (2 ^ 20) s e) :
    AgreeBelow (2 ^ 20)
      (sortKernel header (2 ^ 10) (2 ^ k) 1024
        (transposeKernel 1024 1024
          (sortKernel header (2 ^ k / 2 ^ 10) ((2 ^ k &&& not32 (2 ^ 20)) / 2 ^ 10) 1024
            (transposeKernel 1024 1024 s))))
      (mergeRounds (fun i => i.testBit k) k e) := by
  obtain ⟨n, rfl⟩ : ∃ n, k = 10 + n := ⟨k - 10, by omega⟩
  have hlevel : 2 ^ (10 + n) / 2 ^ 10 = 2 ^ n := by
    rw [Nat.pow_div (by omega) (by decide), Nat.add_sub_cancel_left]
  have hdir : ∀ t, t < 2 ^ 20 →
      decide ((2 ^ (10 + n) &&& not32 (2 ^ 20)) / 2 ^ 10 &&& t ≠ 0) =
        (t % 1024 * 1024 + t / 1024).testBit (10 + n) := by
    intro t ht
    rw [globalMask (10 + n) hk1 hk, testBit_transposed t n ht]
    by_cases h20 : 10 + n = 20
    · have : ¬ n < 10 := by omega
      simp [h20, this]
    · have : n < 10 := by omega
      simp only [h20, if_false, Nat.add_sub_cancel_left, mask_two_pow, this, decide_True,
        Bool.true_and]
  rw [hlevel]
  -- the first transpose and the sort of the columns
  have a1 := transpose_agree s e h
  have a2 := sortKernel_header n ((2 ^ (10 + n) &&& not32 (2 ^ 20)) / 2 ^ 10) (by omega)
    (by omega) _ _ a1
  have a3 := mergeRounds_transposed (fun i => i.testBit (10 + n))
    (fun t => decide ((2 ^ (10 + n) &&& not32 (2 ^ 20)) / 2 ^ 10 &&& t ≠ 0)) hdir n e
    (by omega)
  -- the transpose back
  have a4 := transpose_agree _ _ (agreeBelow_trans a2 a3)
  have a5 := agreeBelow_trans a4
    (transpose_transpose (roundsFrom (fun i => i.testBit (10 + n)) 10 n e))
  -- the sort of the rows
  have a6 := rowSort_header (10 + n) _ _ a5
  rw [mergeRounds_split]
  exact a6

/-! ## The schedule runs the network -/

theorem runDispatches_append {α F : Type} [LinearOrder α] (c : Constants)
    (l1 l2 : List (Dispatch F)) :
    ∀ s : Nat → α, runDispatches c (l1 ++ l2) s = runDispatches c l2 (runDispatches c l1 s) := by
  induction l1 with
  | nil => intro s; rfl
  | cons d l1 ih => intro s; exact ih (d.run c s)

theorem groups_header : 1 * (NUM_ELEMENTS / BITONIC_BLOCK_SIZE) * 1 = 1024 := by decide

theorem matrix_header :
    MATRIX_WIDTH = 1024 ∧ MATRIX_HEIGHT = 1024 ∧ BITONIC_BLOCK_SIZE = 2 ^ 10 ∧
      NUM_ELEMENTS = 2 ^ 20 := by decide

theorem runLocal_header {α F : Type} [LinearOrder α] (cam : FVector4 F) (s e : Nat → α)
    (h : AgreeBelow (2 ^ 20) s e) (j : Nat) (hj : j ≤ 10) :
    AgreeBelow (2 ^ 20)
      (runDispatches header ((List.range j).map (fun k =>
        ({ kernel := Kernel.Sort
           params := { g_iLevel := 2 ^ (k + 1), g_iLevelMask := 2 ^ (k + 1)
                       g_iHeight := MATRIX_HEIGHT, g_iWidth := MATRIX_WIDTH
                       CurrentCamPos := cam }
           groupsX := 1, groupsY := NUM_ELEMENTS / BITONIC_BLOCK_SIZE, groupsZ := 1 } :
          Dispatch F))) s)
      (bitonicLevels j e) := by
  induction j with
  | zero => exact h
  | succ j ih =>
    rw [List.range_succ, List.map_append, runDispatches_append]
    simp only [List.map_cons, List.map_nil, runDispatches, Dispatch.run, groups_header]
    exact localLevel_header (j + 1) (by omega) hj _ _ (ih (by omega))

theorem run_specGlobalLevel {α F : Type} [LinearOrder α] (cam : FVector4 F) (k : Nat)
    (hk1 : 11 ≤ k) (hk : k ≤ 20) (s e : Nat → α) (h : AgreeBelow (2 ^ 20) s e) :
    AgreeBelow (2 ^ 20) (runDispatches header (specGlobalLevel cam (2 ^ k)) s)
      (mergeRounds (fun i => i.testBit k) k e) := by
  have g : 1 * ((2 : Nat) ^ 20 / 2 ^ 10) * 1 = 1024 := by norm_num
  simp only [specGlobalLevel, runDispatches, Dispatch.run, matrix_header, g]
  exact globalLevel_header k hk1 hk s e h

theorem runGlobal_header {α F : Type} [LinearOrder α] (cam : FVector4 F) (s e : Nat → α)
    (h : AgreeBelow (2 ^ 20) s (bitonicLevels 10 e)) (j : Nat) (hj : j ≤ 10) :
    AgreeBelow (2 ^ 20)
      (runDispatches header ((List.range j).flatMap (fun k =>
        specGlobalLevel cam (2 ^ (k + 1) * BITONIC_BLOCK_SIZE))) s)
      (bitonicLevels (10 + j) e) := by
  induction j with
  | zero => exact h
  | succ j ih =>
    rw [List.range_succ, List.flatMap_append, runDispatches_append]
    have hlevel : 2 ^ (j + 1) * BITONIC_BLOCK_SIZE = 2 ^ (10 + (j + 1)) := by
      rw [pow_add 2 10]
      show 2 ^ (j + 1) * 1024 = 2 ^ 10 * 2 ^ (j + 1)
      norm_num
      ring
    simp only [List.flatMap_cons, List.flatMap_nil, List.append_nil]
    rw [hlevel]
    exact run_specGlobalLevel cam (10 + (j + 1)) (by omega) (by omega) _ _ (ih (by omega))

/-- The whole dispatch sequence of the header constants runs the bitonic network of
`2 ^ 20` cells on the surface. -/
theorem runSchedule_header {α F : Type} [LinearOrder α] (cam : FVector4 F) (s : Nat → α) :
    AgreeBelow (2 ^ 20)
      (runDispatches header (specLocalDispatches cam ++ specGlobalDispatches cam) s)
      (bitonicLevels 20 s) := by
  rw [runDispatches_append]
  exact runGlobal_header cam _ s (runLocal_header cam s s (fun _ _ => rfl) 10 (le_refl _)) 10
    (le_refl _)

/-! ## The claims -/

/-- C1: with the Sort Kernel and the Transpose Kernel modelled from the specification, the
full dispatch sequence of `ParallelBitonicSort` (header constants) leaves the first
`NUM_ELEMENTS = 1024 * 1024` cells of the surface, read in flat row-major order, in ascending
order, whatever records of a linearly ordered type the surface held; and the test instance
`N = 8`, `BLOCK_SIZE = 4` turns `[5, 3, 8, 1, 9, 2, 7, 4]` into `[1, 2, 3, 4, 5, 7, 8, 9]`. -/
theorem ParallelBitonicSort_sorts {α F : Type} [LinearOrder α]
    (vp : FComputeShaderVariableParameters F) (extra : Nat) (surface : Nat → α) :
    (∃ vp1 ds, dispatchSequence header (11 + extra) vp = some (vp1, ds) ∧
      ∀ i, i ≤ NUM_ELEMENTS - 2 →
        runDispatches header ds surface i ≤ runDispatches header ds surface (i + 1)) ∧
    (∃ vp1 ds, dispatchSequence toy 3 vp = some (vp1, ds) ∧
      readSurface 8 (runDispatches toy ds (surfaceOf [5, 3, 8, 1, 9, 2, 7, 4])) =
        [1, 2, 3, 4, 5, 7, 8, 9]) := by
  constructor
  · refine ⟨_, _, dispatchSequence_header vp extra, ?_⟩
    intro i hi
    have hN : NUM_ELEMENTS = 2 ^ 20 := by decide
    rw [hN] at hi
    have h := runSchedule_header vp.CurrentCamPos surface
    rw [h i (by omega), h (i + 1) (by omega)]
    exact bitonicLevels_sorts 20 surface i (i + 1) (by omega) (by omega)
  · refine ⟨_, _, rfl, ?_⟩
    simp only [runDispatches, Dispatch.run, List.append_eq, List.cons_append, List.nil_append,
      localBody, globalBody, sortDispatch, transposeDispatch, localConstants,
      transposeConstants, transposeBackConstants]
    decide

/-- C2: with the header's constants the first loop of `ParallelBitonicSort` terminates (eleven
loop tests suffice, and any larger fuel gives the same result) and issues exactly the ten
sort dispatches of the levels `2, 4, ..., 1024` in increasing order, each with
`{level, levelMask = level, height = MATRIX_HEIGHT, width = MATRIX_WIDTH}` and group count
`(1, NUM_ELEMENTS / BITONIC_BLOCK_SIZE, 1)`.  (The source assigns `g_iHeight = MATRIX_WIDTH`
and `g_iWidth = MATRIX_HEIGHT`; both constants are 1024.) -/
theorem localPhase_dispatches {F : Type} (vp : FComputeShaderVariableParameters F)
    (extra : Nat) :
    localPhase header (11 + extra) vp =
      some (localConstants header BITONIC_BLOCK_SIZE vp,
        (List.range 10).map (fun k =>
          { kernel := Kernel.Sort
            params := { g_iLevel := 2 ^ (k + 1), g_iLevelMask := 2 ^ (k + 1)
                        g_iHeight := MATRIX_HEIGHT, g_iWidth := MATRIX_WIDTH
                        CurrentCamPos := vp.CurrentCamPos }
            groupsX := 1, groupsY := NUM_ELEMENTS / BITONIC_BLOCK_SIZE, groupsZ := 1 })) ∧
    ((List.range 10).map (fun k => 2 ^ (k + 1)) = [2, 4, 8, 16, 32, 64, 128, 256, 512, 1024] ∧
      BITONIC_BLOCK_SIZE = 1024 ∧ MATRIX_HEIGHT = 1024 ∧ MATRIX_WIDTH = 1024 ∧
      NUM_ELEMENTS / BITONIC_BLOCK_SIZE = 1024) :=
  ⟨localPhase_header vp extra, by decide⟩

/-- C3: with the header's constants the second loop of `ParallelBitonicSort` terminates and
issues, for each of the ten levels `2 * BLOCK_SIZE, ..., N` in order, exactly the four
dispatches transpose, sort, transpose, sort with the parameters and group counts of
`specGlobalLevel`; the level mask of the first transpose is `level / BLOCK_SIZE` for every
level below `N` and `0` at `level = N`.  (The source assigns `g_iHeight = MATRIX_HEIGHT` and
`g_iWidth = MATRIX_WIDTH` before the first transpose; both constants are 1024.) -/
theorem globalPhase_dispatches {F : Type} (vp : FComputeShaderVariableParameters F)
    (extra : Nat) :
    globalPhase header (11 + extra) vp =
      some (transposeBackConstants header NUM_ELEMENTS vp,
        (List.range 10).flatMap (fun k =>
          specGlobalLevel vp.CurrentCamPos (2 ^ (k + 1) * BITONIC_BLOCK_SIZE))) ∧
    (List.range 10).map (fun k =>
        (2 ^ (k + 1) * BITONIC_BLOCK_SIZE &&& not32 NUM_ELEMENTS) / BITONIC_BLOCK_SIZE) =
      (List.range 9).map (fun k => 2 ^ (k + 1) * BITONIC_BLOCK_SIZE / BITONIC_BLOCK_SIZE) ++
        [0] ∧
    2 ^ (9 + 1) * BITONIC_BLOCK_SIZE = NUM_ELEMENTS ∧
    TRANSPOSE_BLOCK_SIZE = 16 ∧
    (MATRIX_HEIGHT / 16 = 64 ∧ MATRIX_WIDTH / 16 = 64 ∧
      NUM_ELEMENTS / BITONIC_BLOCK_SIZE = 1024) :=
  ⟨globalPhase_header vp extra, by decide, by decide, by decide, by decide⟩

/-- C4: in the step relation whose steps are `requestSort`, the consumer run, `requestSave` and
teardown, every state reachable from the constructed state has at most one sort sequence
enqueued, an enqueued sequence has the executing flag set, and a `requestSort` that enqueues
a sequence finds the queue empty and the executing flag cleared.  The same holds when the
render thread is interleaved with the game thread one dispatch at a time: a sequence is
enqueued or running, never both, and never two. -/
theorem at_most_one_sequence_in_flight {F : Type} [Neg F] [One F] (c : Constants)
    (fuel : Nat) (vp0 : FComputeShaderVariableParameters F) (w : World F)
    (h : Reachable c fuel vp0 w) :
    w.renderQueue ≤ 1 ∧
    (w.renderQueue = 1 → w.self.bIsComputeShaderExecuting = true) ∧
    (∀ cam, (ExecuteComputeShader cam w).renderQueue ≠ w.renderQueue →
      w.renderQueue = 0 ∧ w.self.bIsComputeShaderExecuting = false ∧
      (ExecuteComputeShader cam w).renderQueue = 1) ∧
    (∀ (es : List (Event F)) (w1 : World F),
      runEvents c (World.constructed c vp0) es = some w1 →
        (w1.pc = RenderPC.idle → w1.renderQueue ≤ 1 ∧
          (w1.renderQueue = 1 → w1.self.bIsComputeShaderExecuting = true)) ∧
        (w1.pc ≠ RenderPC.idle →
          w1.renderQueue = 0 ∧ w1.self.bIsComputeShaderExecuting = true)) := by
  obtain ⟨h1, h2⟩ := reachable_queueInvariant c fuel vp0 w h
  refine ⟨h1, h2, ?_, ?_⟩
  · intro cam hne
    unfold ExecuteComputeShader at hne ⊢
    split at hne
    · exact absurd rfl hne
    · rename_i hg
      simp only [Bool.or_eq_true, not_or, Bool.not_eq_true] at hg
      have hq : w.renderQueue = 0 := by
        rcases Nat.lt_or_ge w.renderQueue 1 with hlt | hge
        · omega
        · have := h2 (by omega)
          simp [this] at hg
      simp [hg, hq]
  · intro es w1 hrun
    exact inFlight_runEvents c es _ w1 (inFlight_constructed c vp0) hrun

/-- Witness of C4 at the state reached by one `requestSort` after construction. -/
theorem at_most_one_sequence_in_flight_witness :
    Reachable header 11 vpZero
      (ExecuteComputeShader ⟨0, 0, 0, 1⟩ (World.constructed header vpZero)) ∧
    (ExecuteComputeShader (⟨0, 0, 0, 1⟩ : FVector4 Int)
      (World.constructed header vpZero)).renderQueue ≤ 1 :=
  ⟨Reachable.step (Request.requestSort ⟨0, 0, 0, 1⟩) Reachable.init rfl,
    (at_most_one_sequence_in_flight header 11 vpZero _
      (Reachable.step (Request.requestSort ⟨0, 0, 0, 1⟩) Reachable.init rfl)).1⟩

/-- C5: `ExecuteComputeShader` leaves the whole state unchanged, the live parameter
`CurrentCamPos`, the three flags and the render queue included, whenever the executing flag
or the unloading flag is set; when neither is set it sets the executing flag, stores the
parameter, enqueues exactly one run and changes nothing else. -/
theorem ExecuteComputeShader_guard {F : Type} (cam : FVector4 F) (w : World F) :
    ((w.self.bIsComputeShaderExecuting = true ∨ w.self.bIsUnloading = true) →
      ExecuteComputeShader cam w = w) ∧
    (w.self.bIsComputeShaderExecuting = false → w.self.bIsUnloading = false →
      ExecuteComputeShader cam w =
        { w with
          self := { w.self with
                    bIsComputeShaderExecuting := true
                    VariableParameters :=
                      { w.self.VariableParameters with CurrentCamPos := cam } }
          renderQueue := w.renderQueue + 1 }) := by
  constructor
  · rintro (h | h) <;> simp [ExecuteComputeShader, h]
  · intro h1 h2
    simp [ExecuteComputeShader, h1, h2]

/-- Witness of C5: a second request while the first is in flight is dropped, the camera
position of the first request stays. -/
theorem ExecuteComputeShader_guard_witness :
    ExecuteComputeShader (⟨9, 9, 9, 9⟩ : FVector4 Int)
        (ExecuteComputeShader ⟨0, 0, 0, 1⟩
          (World.constructed header vpZero)) =
      ExecuteComputeShader ⟨0, 0, 0, 1⟩
        (World.constructed header vpZero) :=
  (ExecuteComputeShader_guard ⟨9, 9, 9, 9⟩
    (ExecuteComputeShader ⟨0, 0, 0, 1⟩
      (World.constructed header vpZero))).1 (Or.inl rfl)

/-- C6, as amended: the unloading flag is read once, on entry of
`ExecuteComputeShaderInternal`.  A run entered with the flag set issues no command and
leaves `TextureUAV`, `BufferUAV` and `BufferUAV2` released; and once the flag is set while the
render thread is outside a sequence, no later event of the interleaved machine ever issues
a dispatch: the render thread only releases the views. -/
theorem no_dispatch_when_unloading_at_entry {F : Type} (c : Constants) (fuel : Nat)
    (w : World F) (hu : w.self.bIsUnloading = true) :
    (∃ w1, ExecuteComputeShaderInternal c fuel w = some w1 ∧ w1.commands = w.commands ∧
      w1.self.TextureUAV = false ∧ w1.self.BufferUAV = false ∧ w1.self.BufferUAV2 = false ∧
      w1.self.bIsUnloading = true) ∧
    (w.pc = RenderPC.idle → ∀ (es : List (Event F)) (w1 : World F),
      runEvents c w es = some w1 →
        w1.commands = w.commands ∧ w1.pc = RenderPC.idle ∧ w1.self.bIsUnloading = true) ∧
    (w.pc = RenderPC.idle → ∀ w1, renderStep c w = some w1 →
        w1.commands = w.commands ∧ w1.pc = RenderPC.idle ∧
        w1.self.TextureUAV = false ∧ w1.self.BufferUAV = false ∧
        w1.self.BufferUAV2 = false) := by
  have hr := releaseViews_flags w.self
  refine ⟨⟨{ w with self := releaseViews w.self }, ?_, rfl, hr.2.2.2.2.2.1, hr.2.2.2.2.2.2.1,
    hr.2.2.2.2.2.2.2, hr.2.1.trans hu⟩, ?_, ?_⟩
  · simp [ExecuteComputeShaderInternal, hu]
  · intro hpc es w1 h
    obtain ⟨h1, h2, h3⟩ := runEvents_unloading_idle c es w w1 hu hpc h
    exact ⟨h3, h2, h1⟩
  · intro hpc w1 h
    obtain ⟨-, h2, h3, h4, h5, h6⟩ := renderStep_unloading_idle c w w1 hu hpc h
    exact ⟨h3, h2, h4, h5, h6⟩

/-- Witness of C6 as amended: teardown right after a `requestSort`; the run that the render
thread then enters issues nothing. -/
theorem no_dispatch_when_unloading_at_entry_witness :
    (destructor (ExecuteComputeShader (⟨0, 0, 0, 1⟩ : FVector4 Int)
      (World.constructed header vpZero))).self.bIsUnloading = true ∧
    ∃ w1, ExecuteComputeShaderInternal header 11
        (destructor (ExecuteComputeShader (⟨0, 0, 0, 1⟩ : FVector4 Int)
          (World.constructed header vpZero))) = some w1 ∧
      w1.commands = [] ∧
      w1.self.TextureUAV = false ∧ w1.self.BufferUAV = false ∧ w1.self.BufferUAV2 = false ∧
      w1.self.bIsUnloading = true :=
  ⟨rfl, (no_dispatch_when_unloading_at_entry header 11
    (destructor (ExecuteComputeShader (⟨0, 0, 0, 1⟩ : FVector4 Int)
      (World.constructed header vpZero))) rfl).1⟩

/-- Counterexample to C6 as stated: after `requestSort`, the entry of the run and its first
dispatch, teardown sets the unloading flag; the next advance of the render thread still
issues the sort dispatch of level 4, with the flag set before and after. -/
theorem dispatch_after_teardown_mid_sequence :
    ∃ w w1 : World Int, tornDownMidSequence = some w ∧ w.self.bIsUnloading = true ∧
      dispatchCount w = 1 ∧
      renderStep header w = some w1 ∧ w1.self.bIsUnloading = true ∧ dispatchCount w1 = 2 ∧
      w1.commands = w.commands ++ [Command.dispatch
        { kernel := Kernel.Sort
          params := { g_iLevel := 4, g_iLevelMask := 4, g_iHeight := 1024, g_iWidth := 1024
                      CurrentCamPos := (⟨0, 0, 0, 1⟩ : FVector4 Int) }
          groupsX := 1, groupsY := 1024, groupsZ := 1 }] :=
  ⟨_, _, rfl, rfl, rfl, rfl, rfl, rfl, rfl⟩

/-- C7: on an object whose staging array holds `NUM_ELEMENTS` records,
`SetPointPosDataReference` fails if and only if the data has more than `NUM_ELEMENTS`
records, and then by the `check` of line 69; otherwise it succeeds, record `i` of the
staging array is the conversion of record `i` of the data for every `i` below the data
length, every other record and every other member is unchanged, and the length stays
`NUM_ELEMENTS`.  Right after construction the staging array has `NUM_ELEMENTS` records, all
equal to `(-1, -1, -1, -1)`. -/
theorem SetPointPosDataReference_copies {F : Type} [Neg F] [One F]
    (data : List (FLinearColor F)) (s : FComputeShader F)
    (vp0 : FComputeShaderVariableParameters F)
    (hs : s.PointPosData.length = NUM_ELEMENTS) :
    ((∃ e, SetPointPosDataReference header data s = Except.error e) ↔
      NUM_ELEMENTS < data.length) ∧
    (NUM_ELEMENTS < data.length →
      SetPointPosDataReference header data s = Except.error Failure.check) ∧
    (data.length ≤ NUM_ELEMENTS →
      ∃ s1, SetPointPosDataReference header data s = Except.ok s1 ∧
        s1.PointPosData.length = NUM_ELEMENTS ∧
        (∀ i, i < data.length →
          s1.PointPosData[i]? = (data[i]?).map FVector4.ofLinearColor) ∧
        (∀ i, data.length ≤ i → s1.PointPosData[i]? = s.PointPosData[i]?) ∧
        s1 = { s with PointPosData := s1.PointPosData }) ∧
    ((FComputeShader.construct header vp0).PointPosData.length = NUM_ELEMENTS ∧
      ∀ i, i < NUM_ELEMENTS →
        (FComputeShader.construct header vp0).PointPosData[i]? =
          some { X := -1, Y := -1, Z := -1, W := -1 }) := by
  have hN : header.NUM_ELEMENTS = NUM_ELEMENTS := rfl
  have hok : data.length ≤ NUM_ELEMENTS →
      ∃ s1, SetPointPosDataReference header data s = Except.ok s1 ∧
        s1.PointPosData.length = NUM_ELEMENTS ∧
        (∀ i, i < data.length →
          s1.PointPosData[i]? = (data[i]?).map FVector4.ofLinearColor) ∧
        (∀ i, data.length ≤ i → s1.PointPosData[i]? = s.PointPosData[i]?) ∧
        s1 = { s with PointPosData := s1.PointPosData } := by
    intro hle
    obtain ⟨out, hout, hlen, hcopied, hrest⟩ :=
      copyLoop_eq data 0 s.PointPosData (by omega)
    refine ⟨{ s with PointPosData := out }, ?_, hlen.trans hs, ?_, ?_, rfl⟩
    · simp [SetPointPosDataReference, hN, hle, hout]
    · intro i hi
      simpa using hcopied i hi
    · intro i hi
      exact hrest i (Or.inr (by omega))
  have herr : NUM_ELEMENTS < data.length →
      SetPointPosDataReference header data s = Except.error Failure.check := by
    intro hlt
    have : ¬ data.length ≤ NUM_ELEMENTS := by omega
    simp [SetPointPosDataReference, hN, this]
  refine ⟨⟨?_, fun hlt => ⟨_, herr hlt⟩⟩, herr, hok, ?_, ?_⟩
  · rintro ⟨e, he⟩
    by_contra hnot
    obtain ⟨s1, h1, -⟩ := hok (by omega)
    rw [h1] at he
    cases he
  · simp [FComputeShader.construct, NUM_ELEMENTS]
  · intro i hi
    simp only [FComputeShader.construct]
    rw [List.getElem?_replicate]
    simp [hN, hi]

/-- Witness of C7: one record copied into the freshly constructed staging array. -/
theorem SetPointPosDataReference_copies_witness :
    (FComputeShader.construct header
      vpZero).PointPosData.length
        = NUM_ELEMENTS ∧
    ∃ s1, SetPointPosDataReference header [(⟨1, 2, 3, 4⟩ : FLinearColor Int)]
        (FComputeShader.construct header vpZero) = Except.ok s1 ∧
      s1.PointPosData[0]? = some ⟨1, 2, 3, 4⟩ ∧
      s1.PointPosData[1]? = some ⟨-1, -1, -1, -1⟩ :=
  have hs : (FComputeShader.construct header
      vpZero).PointPosData.length
        = NUM_ELEMENTS := List.length_replicate _ _
  have h := SetPointPosDataReference_copies [(⟨1, 2, 3, 4⟩ : FLinearColor Int)]
    (FComputeShader.construct header vpZero)
    vpZero hs
  ⟨hs, by
    obtain ⟨s1, h1, -, h3, h4, -⟩ := h.2.2.1 (by decide)
    refine ⟨s1, h1, ?_, ?_⟩
    · simpa [FVector4.ofLinearColor] using h3 0 (by decide)
    · rw [h4 1 (by decide)]
      exact h.2.2.2.2 1 (by decide)⟩

/-- C8: for all bytes `r, g, b, a`, the masks and shifts of `SaveScreenshot` applied to the
32-bit value `r + 2^8 g + 2^16 b + 2^24 a` return exactly `(r, g, b, a)`. -/
theorem unpackPixel_roundtrip (r g b a : Nat) (hr : r < 256) (hg : g < 256) (hb : b < 256)
    (ha : a < 256) :
    unpackPixel (r + 2 ^ 8 * g + 2 ^ 16 * b + 2 ^ 24 * a) =
      { R := r, G := g, B := b, A := a } ∧
    r + 2 ^ 8 * g + 2 ^ 16 * b + 2 ^ 24 * a < UINT_SIZE := by
  have e1 : (0x000000FF : Nat) = 2 ^ 8 - 1 := by norm_num
  have e2 : (0x0000FF00 : Nat) = (2 ^ 8 - 1) <<< 8 := by decide
  have e3 : (0x00FF0000 : Nat) = (2 ^ 8 - 1) <<< 16 := by decide
  have e4 : (0xFF000000 : Nat) = (2 ^ 8 - 1) <<< 24 := by decide
  refine ⟨?_, by simp only [UINT_SIZE]; omega⟩
  unfold unpackPixel toUInt8
  rw [e2, e3, e4, and_shiftLeft_mask_shiftRight, and_shiftLeft_mask_shiftRight,
    and_shiftLeft_mask_shiftRight, e1, Nat.and_pow_two_sub_one_eq_mod]
  congr 1 <;> omega

/-- Witness of C8 at the bytes `(18, 52, 86, 120)`, the value `0x78563412`. -/
theorem unpackPixel_roundtrip_witness :
    unpackPixel (18 + 2 ^ 8 * 52 + 2 ^ 16 * 86 + 2 ^ 24 * 120) =
      { R := 18, G := 52, B := 86, A := 120 } ∧
    18 + 2 ^ 8 * 52 + 2 ^ 16 * 86 + 2 ^ 24 * 120 < UINT_SIZE :=
  unpackPixel_roundtrip 18 52 86 120 (by decide) (by decide) (by decide) (by decide)

/-- C9: for every state with the unloading flag cleared, one run of
`ExecuteComputeShaderInternal` (header constants, any fuel of at least eleven) returns,
appends the full dispatch sequence of fifty dispatches once, then one `SaveScreenshot` if
`bSave` was set and none otherwise, and ends with the executing flag and `bSave` cleared; the
run after it appends the dispatch sequence again and no `SaveScreenshot`. -/
theorem ExecuteComputeShaderInternal_one_shot_save {F : Type} (w : World F) (extra : Nat)
    (h : w.self.bIsUnloading = false) :
    ∃ vp ds w1,
      dispatchSequence header (11 + extra) w.self.VariableParameters = some (vp, ds) ∧
      ds.length = 50 ∧
      ExecuteComputeShaderInternal header (11 + extra) w = some w1 ∧
      w1.commands = w.commands ++ ds.map Command.dispatch ++
        (if w.self.bSave then [Command.saveScreenshot] else []) ∧
      w1.self.bIsComputeShaderExecuting = false ∧ w1.self.bSave = false ∧
      w1.self.bIsUnloading = false ∧ w1.renderQueue = w.renderQueue ∧
      ∃ vp2 ds2 w2,
        dispatchSequence header (11 + extra) w1.self.VariableParameters = some (vp2, ds2) ∧
        ExecuteComputeShaderInternal header (11 + extra) w1 = some w2 ∧
        w2.commands = w1.commands ++ ds2.map Command.dispatch ∧
        w2.self.bIsComputeShaderExecuting = false ∧ w2.self.bSave = false :=
  ⟨_, _, _, dispatchSequence_header w.self.VariableParameters extra,
    specDispatches_length _, ExecuteComputeShaderInternal_header w extra h, rfl, rfl, rfl, h,
    rfl, _, _, _, dispatchSequence_header _ extra,
    ExecuteComputeShaderInternal_header _ extra h, by simp, rfl, rfl⟩

/-- Witness of C9: `Save()` on the constructed object, then two runs; the first run ends with
one `SaveScreenshot`, the second adds none. -/
theorem ExecuteComputeShaderInternal_one_shot_save_witness :
    (Save (World.constructed header
      vpZero)).self.bSave = true ∧
    ∃ vp ds w1,
      dispatchSequence header (11 + 0) (Save (World.constructed header
        vpZero)).self.VariableParameters
          = some (vp, ds) ∧
      ds.length = 50 ∧
      ExecuteComputeShaderInternal header (11 + 0) (Save (World.constructed header
        vpZero)) = some w1 ∧
      w1.commands = [] ++ ds.map Command.dispatch ++ [Command.saveScreenshot] ∧
      ∃ vp2 ds2 w2,
        dispatchSequence header (11 + 0) w1.self.VariableParameters = some (vp2, ds2) ∧
        ExecuteComputeShaderInternal header (11 + 0) w1 = some w2 ∧
        w2.commands = w1.commands ++ ds2.map Command.dispatch :=
  ⟨rfl, by
    obtain ⟨vp, ds, w1, h1, h2, h3, h4, -, -, -, -, vp2, ds2, w2, h5, h6, h7, -⟩ :=
      ExecuteComputeShaderInternal_one_shot_save (Save (World.constructed header
        vpZero)) 0 rfl
    exact ⟨vp, ds, w1, h1, h2, h3, h4, vp2, ds2, w2, h5, h6, h7⟩⟩

/-- C10: for a surface of `SizeX` by `SizeY` cells (`SizeY` a `uint32`, the pixel count within
the `int32` count of a `TArray`) locked with row stride `LolStride`, `SaveScreenshot` returns,
collects exactly `SizeX * SizeY` pixels, and the pixel at position `Row * SizeX + Col` is the
decode of the word at byte offset `Row * LolStride + 4 * Col`; the failure branch is taken if
and only if `SizeX * SizeY = 0`; the division is evaluated only with `SizeY > 0` and yields
`SizeX`. -/
theorem SaveScreenshot_reads_by_stride (read : Nat → Nat)
    (SizeX SizeY LolStride extra : Nat)
    (hY : SizeY < 2 ^ 32) (hNum : SizeX * SizeY < 2 ^ 31) :
    ∃ shot : Screenshot,
      SaveScreenshot read SizeX SizeY LolStride (SizeX + SizeY + 1 + extra) = some shot ∧
      shot.Bitmap.length = SizeX * SizeY ∧
      (∀ Row Col, Row < SizeY → Col < SizeX →
        shot.Bitmap[Row * SizeX + Col]? =
          some (unpackPixel (read (Row * LolStride + 4 * Col)))) ∧
      (shot.saved = none ↔ SizeX * SizeY = 0) ∧
      (∀ x y, shot.saved = some (x, y) → 0 < SizeY ∧ x = SizeX ∧ y = SizeY) := by
  have hX : 0 < SizeY → SizeX < UINT_SIZE := by
    intro h0
    have : SizeX * 1 ≤ SizeX * SizeY := Nat.mul_le_mul_left _ h0
    simp only [UINT_SIZE]
    omega
  have hrow := rowLoop_eq read SizeX SizeY LolStride (SizeX + SizeY + 1 + extra) SizeY
    (SizeX + SizeY + 1 + extra) 0 0 [] (by omega) (by simpa [UINT_SIZE] using hY) hX (by omega)
    (by omega)
  simp only [List.nil_append] at hrow
  have hlen := rowsPixels_length read SizeX LolStride 0 SizeY
  rw [Nat.mul_comm] at hlen
  by_cases h0 : SizeX * SizeY = 0
  · refine ⟨{ Bitmap := rowsPixels read SizeX LolStride 0 SizeY, saved := none }, ?_, hlen, ?_,
      ?_, ?_⟩
    · simp [SaveScreenshot, hrow, hlen, h0]
    · intro Row Col hR hC
      simpa using rowsPixels_get read SizeX LolStride 0 SizeY Row Col hR hC
    · simp [h0]
    · intro x y h
      simp at h
  · have hYpos : 0 < SizeY := by
      rcases Nat.eq_zero_or_pos SizeY with h | h
      · simp [h] at h0
      · exact h
    have hdiv : SizeX * SizeY % UINT_SIZE / SizeY = SizeX := by
      rw [Nat.mod_eq_of_lt (by simp only [UINT_SIZE]; omega)]
      exact Nat.mul_div_cancel _ hYpos
    refine ⟨{ Bitmap := rowsPixels read SizeX LolStride 0 SizeY, saved := some (SizeX, SizeY) },
      ?_, hlen, ?_, ?_, ?_⟩
    · have hne : SizeY ≠ 0 := by omega
      simp [SaveScreenshot, hrow, hlen, h0, hne, hdiv]
    · intro Row Col hR hC
      simpa using rowsPixels_get read SizeX LolStride 0 SizeY Row Col hR hC
    · simp [h0]
    · intro x y h
      simp only [Option.some.injEq, Prod.mk.injEq] at h
      exact ⟨hYpos, h.1.symm, h.2.symm⟩

/-- Witness of C10: a surface of 2 by 3 cells with a stride of 16 bytes (two cells of
padding per row), the word at offset `p` being `p` itself. -/
theorem SaveScreenshot_reads_by_stride_witness :
    ∃ shot : Screenshot,
      SaveScreenshot (fun p => p) 2 3 16 (2 + 3 + 1 + 0) = some shot ∧
      shot.Bitmap.length = 2 * 3 ∧
      (∀ Row Col, Row < 3 → Col < 2 →
        shot.Bitmap[Row * 2 + Col]? = some (unpackPixel ((fun p => p) (Row * 16 + 4 * Col)))) ∧
      (shot.saved = none ↔ 2 * 3 = 0) ∧
      (∀ x y, shot.saved = some (x, y) → 0 < 3 ∧ x = 2 ∧ y = 3) :=
  SaveScreenshot_reads_by_stride (fun p => p) 2 3 16 0 (by decide) (by decide)

end SortingComputeShader
